import Mathlib

/-!
Verification development for the automaton-based predictors of the
sgnmt decoding framework (`cam/sgnmt/predictors/automata.py`).

The Python source is shallowly embedded: arcs and automata become Lean
structures, the predictor methods become pure functions on explicit
state values, Python `float` weights are modelled by `ℚ` (the claims
only exercise negation, addition, subtraction and order comparison,
which agree between the two), Python `None` becomes `Option.none`, a
Python dict becomes an insertion-ordered association list, and an
uncaught Python exception becomes an `Except.error` value.  File-system
access (`load_fst`, `glob`, `open`) is modelled by passing the would-be
result of the read as an argument.  `utils.w2f` converts an OpenFST
weight object to a float; arcs here carry that float directly, so `w2f`
is the identity and is not reproduced.
-/

namespace SgnmtAutomata

/-- OpenFST's reserved id for epsilon arcs (`EPS_ID` in the source). -/
def EPS_ID : Nat := 0

/-- Modelled from the spec: `utils.GO_ID`, the begin-of-sentence marker, is
defined in `cam/sgnmt/utils.py` which is not among the provided sources.
The spec only requires it to be an ordinary explicit label distinct from
the epsilon id 0; we fix it to 1. -/
def GO_ID : Nat := 1

/-- Modelled from the spec: `utils.EOS_ID`, the end-of-sentence marker
(`cam/sgnmt/utils.py` is not among the provided sources); an ordinary
label distinct from epsilon and from the begin marker, fixed to 2. -/
def EOS_ID : Nat := 2

/-- Modelled from the spec: `utils.UNK_ID`, the unknown-word id
(`cam/sgnmt/utils.py` is not among the provided sources); an ordinary
label distinct from the other reserved ids, fixed to 3. -/
def UNK_ID : Nat := 3

/-- One FST arc: input label, output label, weight (already converted to
a number as `utils.w2f` would), destination state. -/
structure Arc where
  ilabel : Nat
  olabel : Nat
  weight : ℚ
  nextstate : Int
deriving DecidableEq

/-- An in-memory weighted automaton: the start state and, for each state,
its list of outgoing arcs in enumeration order (`cur_fst.arcs(node)`). -/
structure Fst where
  start : Int
  arcsOf : Int → List Arc

/-- Arc enumeration that tolerates an absent automaton.  In the Python
code `self.cur_fst.arcs(...)` is only reached when a current node exists,
which in turn requires a loaded fst, so the `none` branch is unreachable
in the modelled flows. -/
def arcsOf? : Option Fst → Int → List Arc
  | none, _ => []
  | some g, n => g.arcsOf n

/-- Configuration switches shared by the fst and nfst predictors. -/
structure FstConfig where
  useWeights : Bool
  skipBosWeight : Bool
  toLog : Bool
deriving DecidableEq

/-- `self.weight_factor = -1.0 if to_log else 1.0`. -/
def weightFactor (cfg : FstConfig) : ℚ :=
  if cfg.toLog then -1 else 1

/-! ### Python dicts as insertion-ordered association lists -/

/-- Lookup in a Python-style dict (`d.get(k)` / `k in d`). -/
def dget? {κ α : Type} [DecidableEq κ] : List (κ × α) → κ → Option α
  | [], _ => none
  | p :: rest, k => if p.1 = k then some p.2 else dget? rest k

/-- Update in a Python-style dict (`d[k] = v`): replace the value in
place if the key is present, otherwise append, preserving insertion
order exactly as Python dicts do.  Keys are unique in every dict the
source builds, so replacing the first occurrence is exact. -/
def dset {κ α : Type} [DecidableEq κ] : List (κ × α) → κ → α → List (κ × α)
  | [], k, v => [(k, v)]
  | p :: rest, k, v =>
    if p.1 = k then (k, v) :: rest else p :: dset rest k v

/-! ### Concrete instances and proof-side predicates for the claims -/

/-- Keys of a dict. -/
def dkeys {κ α : Type} (d : List (κ × α)) : List κ := d.map (·.1)

/-- Modelled from the spec: `finalize_posterior` lives in
`cam.sgnmt.predictors.core.Predictor`, which is not among the provided
sources.  Per the spec it supports a weights-off mode in which every
reachable symbol scores 0 and a normalize mode renormalizing scores to
sum to 1 in probability space; no claim exercises the normalize mode, so
this embedding covers the `normalize_scores = false` configurations the
claims use: with weights on the scores are returned unchanged, with
weights off every score is replaced by 0. -/
def finalizePosterior (scores : List (Nat × ℚ)) (useWeights : Bool) :
    List (Nat × ℚ) :=
  if useWeights then scores else scores.map (fun p => (p.1, 0))

/-- State of `FstPredictor`: the loaded automaton, the current node
(`cur_node`, with `none` standing for Python `None`) and the captured
begin-of-sentence score (`bos_score`). -/
structure FstPredState where
  curFst : Option Fst
  curNode : Option Int
  bosScore : ℚ

/-- The validity test `self.cur_node < 0` of `predict_next`/`consume`.
The codebase is Python 2 (`logging.warn`, `super(...)` style), where
`None < 0` evaluates to `True`, so `None` counts as invalid too. -/
def curNodeInvalid : Option Int → Bool
  | none => true
  | some v => decide (v < 0)

/-- `FstPredictor.predict_next`: scores from the outgoing arcs of the
current node; empty when the node is invalid; if `add_bos_to_eos_score`
(i.e. `skip_bos_weight = False`) the begin score is added to the
end-of-sentence score. -/
def fstPredictNext (cfg : FstConfig) (s : FstPredState) : List (Nat × ℚ) :=
  match s.curNode with
  | none => []
  | some n =>
    if n < 0 then []
    else
      let scores := (arcsOf? s.curFst n).foldl
        (fun sc arc => dset sc arc.olabel (weightFactor cfg * arc.weight)) []
      let scores :=
        match dget? scores EOS_ID, cfg.skipBosWeight with
        | some v, false => dset scores EOS_ID (v + s.bosScore)
        | _, _ => scores
      finalizePosterior scores cfg.useWeights

/-- Arc scan of `FstPredictor.consume`: return at the first arc labelled
`word`; otherwise remember the last arc labelled with the unknown id and
fall back to it after the loop.  The returned pair is the new `cur_node`
and the Python return value (`none` models returning `None`). -/
def fstConsumeArcs (cfg : FstConfig) (word : Nat) :
    List Arc → Option Arc → Option Int × Option ℚ
  | [], unkArc => (unkArc.map (·.nextstate), none)
  | a :: rest, unkArc =>
    if a.olabel = word then (some a.nextstate, some (weightFactor cfg * a.weight))
    else if a.olabel = UNK_ID then fstConsumeArcs cfg word rest (some a)
    else fstConsumeArcs cfg word rest unkArc

/-- `FstPredictor.consume`: no-op returning `None` when already invalid,
otherwise follow the arc labelled `word` (or the unknown fallback). -/
def fstConsume (cfg : FstConfig) (s : FstPredState) (word : Nat) :
    FstPredState × Option ℚ :=
  if curNodeInvalid s.curNode then (s, none)
  else
    match s.curNode with
    | none => (s, none)
    | some n =>
      let r := fstConsumeArcs cfg word (arcsOf? s.curFst n) none
      ({ s with curNode := r.1 }, r.2)

/-- `FstPredictor.initialize`: install the load result (`none` models a
missing/unreadable automaton file), set `cur_node` to the start state,
consume the begin-of-sentence symbol and capture its score, overriding a
falsy (`None`/`0.0`) return with `0.0`. -/
def fstInit (cfg : FstConfig) (loaded : Option Fst) : FstPredState :=
  let s0 : FstPredState :=
    { curFst := loaded, curNode := loaded.map (·.start), bosScore := 0 }
  let r := fstConsume cfg s0 GO_ID
  { r.1 with bosScore := (r.2).getD 0 }

/-- `FstPredictor.get_state` returns the current node. -/
def fstGetState (s : FstPredState) : Option Int := s.curNode

/-- `FstPredictor.set_state` sets the current node. -/
def fstSetState (s : FstPredState) (st : Option Int) : FstPredState :=
  { s with curNode := st }

/-- The truthiness test `not self.cur_node` of `estimate_future_cost`:
true for Python `None` and for the integer `0`. -/
def curNodeFalsy : Option Int → Bool
  | none => true
  | some v => decide (v = 0)

/-- `FstPredictor.estimate_future_cost`: 0 when `cur_node` is falsy,
otherwise the stored shortest distance behind the first arc matching the
hypothesis's last word, and 0 when no arc matches.  `distances` models
the table produced by `initialize_heuristic`. -/
def fstEstimateFutureCost (s : FstPredState) (distances : Int → ℚ)
    (lastWord : Nat) : ℚ :=
  if curNodeFalsy s.curNode then 0
  else
    match s.curNode with
    | none => 0
    | some n =>
      match (arcsOf? s.curFst n).find? (fun a => decide (a.olabel = lastWord)) with
      | some a => distances a.nextstate
      | none => 0

/-- `FstPredictor.is_equal`: plain equality of the stored nodes. -/
def fstIsEqual (st1 st2 : Option Int) : Bool := st1 == st2

/-- Failure modes of the embedded nondeterministic predictor. -/
inductive NfstFail where
  /-- Python raises `ValueError` when `max()`/`min()` is applied to an
  empty sequence, as `score_max_func(d_unconsumed.values())` does when
  no arc matched the consumed word. -/
  | valueError
  /-- The fuel given to the `_follow_eps` while-loop ran out. -/
  | noFuel
deriving DecidableEq

/-- Python `max`/`min` of a list of values: `score_max_func` is `max`
when `to_log` is set and `min` otherwise; on an empty sequence both
raise, modelled by `none`. -/
def pyMax (toLog : Bool) : List ℚ → Option ℚ
  | [] => none
  | v :: rest => some (rest.foldl (fun m x => if toLog then max m x else min m x) v)

/-- The comparison `visited.get(next_node, NEG_INF) < next_score`: an
absent entry is negative infinity and always improves. -/
def negInfLt (o : Option ℚ) (ns : ℚ) : Bool :=
  match o with
  | some old => decide (old < ns)
  | none => true

/-- One eps-arc relaxation of `_follow_eps`:
`if visited.get(next_node, NEG_INF) < next_score` updates both `visited`
and `next_open`.  `visited` is modelled as a map `Int → Option ℚ`
(`none` = absent = negative infinity). -/
def relaxArc (v : Int → Option ℚ) (nextOpen : List (Int × ℚ)) (ns : ℚ)
    (t : Int) : (Int → Option ℚ) × List (Int × ℚ) :=
  if negInfLt (v t) ns then
    (fun x => if x = t then some ns else v x, dset nextOpen t ns)
  else (v, nextOpen)

/-- The arc loop of `_follow_eps` for one open node of score `score`:
follow epsilon arcs, remember in the Boolean whether any non-epsilon
arc was seen (`has_noneps`). -/
def epsNodeStep (c : ℚ) (score : ℚ) :
    List Arc → (Int → Option ℚ) → List (Int × ℚ) → Bool →
    (Int → Option ℚ) × List (Int × ℚ) × Bool
  | [], v, no, hn => (v, no, hn)
  | a :: rest, v, no, hn =>
    if a.olabel = EPS_ID then
      let r := relaxArc v no (score + c * a.weight) a.nextstate
      epsNodeStep c score rest r.1 r.2 hn
    else epsNodeStep c score rest v no true

/-- One round of the `_follow_eps` while-loop: process every node of
`open_nodes` in order, then nodes with a non-epsilon arc join `d` at
their open score. -/
def epsRound (A : Int → List Arc) (c : ℚ) :
    List (Int × ℚ) → (Int → Option ℚ) → List (Int × ℚ) → List (Int × ℚ) →
    (Int → Option ℚ) × List (Int × ℚ) × List (Int × ℚ)
  | [], v, no, d => (v, no, d)
  | (n, s) :: rest, v, no, d =>
    let r := epsNodeStep c s (A n) v no false
    epsRound A c rest r.1 r.2.1 (if r.2.2 then dset d n s else d)

/-- The fuelled while-loop of `_follow_eps`; returns the final
`(visited, d)` pair, or `none` when the fuel runs out before
`open_nodes` empties. -/
def epsLoop (A : Int → List Arc) (c : ℚ) :
    Nat → List (Int × ℚ) → (Int → Option ℚ) → List (Int × ℚ) →
    Option ((Int → Option ℚ) × List (Int × ℚ))
  | fuel, openN, v, d =>
    match openN with
    | [] => some (v, d)
    | _ :: _ =>
      match fuel with
      | 0 => none
      | fuel' + 1 =>
        let r := epsRound A c openN v [] d
        epsLoop A c fuel' r.2.1 r.1 r.2.2

/-- The initial visited map `dict(roots)`. -/
def rootsFun (roots : List (Int × ℚ)) : Int → Option ℚ := fun x => dget? roots x

/-- `NondeterministicFstPredictor._follow_eps`: breadth-first epsilon
relaxation from `roots` (a state-to-score dict); the result is
`[(weight, node) for node, weight in d.items()]`. -/
def followEps (A : Int → List Arc) (c : ℚ) (fuel : Nat)
    (roots : List (Int × ℚ)) : Option (List (ℚ × Int)) :=
  (epsLoop A c fuel roots (rootsFun roots) []).map
    (fun r => r.2.map (fun p => (p.2, p.1)))

/-- `NondeterministicFstPredictor.predict_next`: aggregate the
non-epsilon arcs of every frontier member by output label, combining
same-label scores with `score_max_func`. -/
def nfstPredictNext (g? : Option Fst) (cfg : FstConfig)
    (frontier : List (ℚ × Int)) : List (Nat × ℚ) :=
  let scores := frontier.foldl (fun sc wn =>
    (arcsOf? g? wn.2).foldl (fun sc arc =>
      if arc.olabel = EPS_ID then sc
      else
        let score := wn.1 + weightFactor cfg * arc.weight
        match dget? sc arc.olabel with
        | some old =>
          dset sc arc.olabel (if cfg.toLog then max old score else min old score)
        | none => dset sc arc.olabel score) sc) []
  finalizePosterior scores cfg.useWeights

/-- Inner arc loop collecting `d_unconsumed` in `consume`: for arcs
labelled `word`, keep per destination the largest
`weight + weight_factor * arc.weight`. -/
def dUnconsumedArcs (cfg : FstConfig) (word : Nat) (weight : ℚ) :
    List Arc → List (Int × ℚ) → List (Int × ℚ)
  | [], d => d
  | a :: rest, d =>
    if a.olabel = word then
      let ns := weight + weightFactor cfg * a.weight
      let d' :=
        match dget? d a.nextstate with
        | some old => if old < ns then dset d a.nextstate ns else d
        | none => dset d a.nextstate ns
      dUnconsumedArcs cfg word weight rest d'
    else dUnconsumedArcs cfg word weight rest d

/-- Outer frontier loop collecting `d_unconsumed` in `consume`. -/
def dUnconsumed (g? : Option Fst) (cfg : FstConfig) (word : Nat) :
    List (ℚ × Int) → List (Int × ℚ) → List (Int × ℚ)
  | [], d => d
  | (w, n) :: rest, d =>
    dUnconsumed g? cfg word rest (dUnconsumedArcs cfg word w (arcsOf? g? n) d)

/-- `NondeterministicFstPredictor.consume`: collect `d_unconsumed`,
compute `consumed_score = score_max_func(d_unconsumed.values())` unless
the word is the begin marker and `skip_bos_weight` is unset (then 0),
subtract it from every destination and epsilon-close the result.  The
method body has no `return`, so the Python return value is always
`None`, carried as the second component.  Note `ValueError` when
`d_unconsumed` is empty and the `score_max_func` branch is taken. -/
def nfstConsumeState (g? : Option Fst) (cfg : FstConfig) (fuel : Nat)
    (frontier : List (ℚ × Int)) (word : Nat) :
    Except NfstFail (List (ℚ × Int)) :=
  let d := dUnconsumed g? cfg word frontier []
  let consumedScore? : Except NfstFail ℚ :=
    if word ≠ GO_ID ∨ cfg.skipBosWeight = true then
      match pyMax cfg.toLog (d.map (·.2)) with
      | some m => .ok m
      | none => .error .valueError
    else .ok 0
  match consumedScore? with
  | .error e => .error e
  | .ok m =>
    match followEps (arcsOf? g?) (weightFactor cfg) fuel
        (d.map fun p => (p.1, p.2 - m)) with
    | some fr => .ok fr
    | none => .error .noFuel

/-- `consume` as called: the state update together with the method's
Python return value, which is always `None` since the body has no
`return` statement. -/
def nfstConsume (g? : Option Fst) (cfg : FstConfig) (fuel : Nat)
    (frontier : List (ℚ × Int)) (word : Nat) :
    Except NfstFail (List (ℚ × Int) × Option ℚ) :=
  (nfstConsumeState g? cfg fuel frontier word).map (fun fr2 => (fr2, none))

/-- `NondeterministicFstPredictor.initialize`: load the automaton
(`none` models a missing/unreadable file), epsilon-close the start
state, then consume the begin-of-sentence symbol. -/
def nfstInit (g? : Option Fst) (cfg : FstConfig) (fuel : Nat) :
    Except NfstFail (List (ℚ × Int)) :=
  let nodes0? : Option (List (ℚ × Int)) :=
    match g? with
    | some g => followEps g.arcsOf (weightFactor cfg) fuel [(g.start, 0)]
    | none => some []
  match nodes0? with
  | none => .error .noFuel
  | some nodes0 =>
    match nfstConsume g? cfg fuel nodes0 GO_ID with
    | .ok p => .ok p.1
    | .error e => .error e

/-- `NondeterministicFstPredictor.is_equal`: compare the sorted lists of
frontier state ids (`sorted([n for _, n in state])`); Python's `sorted`
is modelled by insertion sort, which is stable like Python's. -/
def nfstIsEqual (st1 st2 : List (ℚ × Int)) : Bool :=
  decide (List.insertionSort (· ≤ ·) (st1.map (·.2)) =
          List.insertionSort (· ≤ ·) (st2.map (·.2)))

/-- Severity of a message emitted through the logging module. -/
inductive LogMsg where
  | warn
  | error
deriving DecidableEq

/-- Python `str.zfill`: left-pad with `'0'` to the given width (the
sign-handling of `zfill` never triggers on the digit strings used
here). -/
def zfill (width : Nat) (s : String) : String :=
  if width ≤ s.length then s
  else String.mk (List.replicate (width - s.length) '0') ++ s

/-- The constructor's nonterminal-map handling: read `ntmap`, look up
the id of `'S'`, defaulting to `"1"` with a warning if the file is
absent/unreadable (`none`) or has no `S` entry (the `KeyError` is
caught by the same bare `except`); then build
`root_fst_prefix = "1%s000" % start_id.zfill(3)`. -/
def rtnCtorRootPat (ntmap : Option (List (String × String))) :
    String × List LogMsg :=
  match ntmap with
  | none => ("1" ++ zfill 3 "1" ++ "000", [.warn])
  | some m =>
    match dget? m "S" with
    | none => ("1" ++ zfill 3 "1" ++ "000", [.warn])
    | some sid => ("1" ++ zfill 3 sid ++ "000", [])

/-- Root-automaton resolution in `RtnPredictor.initialize`.  Inputs
model the file system: whether `<base>/<index>.fst` passes `os.access`,
the outcome of `fst.Fst.read` on it (`none` = the read raised), the
`glob` matches for the derived prefix inside `<base>/<index>/`, and the
read outcome per candidate file.  Python's `sorted` on the candidate
paths is modelled by insertion sort.  Returns the loaded root (or
`none` = invalid) together with the logged messages. -/
def rtnResolveRoot (directAccessible : Bool) (readDirect : Option Fst)
    (candidates : List String) (readCand : String → Option Fst) :
    Option Fst × List LogMsg :=
  if directAccessible then
    match readDirect with
    | some g => (some g, [])
    | none => (none, [.error])
  else
    match candidates with
    | [] => (none, [.error])
    | _ :: _ =>
      let warns : List LogMsg := if 1 < candidates.length then [.warn] else []
      let cands :=
        if 1 < candidates.length then List.insertionSort (· ≤ ·) candidates
        else candidates
      match cands.getLast? with
      | some fn =>
        match readCand fn with
        | some g => (some g, warns)
        | none => (none, warns ++ [.error])
      | none => (none, warns ++ [.error])

/-- `RtnPredictor.consume` appends the word to the history; the method
returns `None` (second component). -/
def rtnConsume (hist : List Nat) (word : Nat) : List Nat × Option ℚ :=
  (hist ++ [word], none)

/-- `RtnPredictor.predict_next`: with no root automaton loaded, return
the empty map before any expansion takes place.  The late-expansion
machinery (`expand_rtn`, built on OpenFST's `replace`) is abstracted as
the `expand` argument; every claim touching this method concerns only
the invalid branch, which holds for every expansion function. -/
def rtnPredictNext (g? : Option Fst) (useWeights : Bool)
    (expand : Fst → List Nat → List (Nat × ℚ)) (hist : List Nat) :
    List (Nat × ℚ) :=
  match g? with
  | none => []
  | some g => finalizePosterior (expand g hist) useWeights

/-- Heap model of the RTN predictor's `cur_history`: `cells` are the
allocated Python list objects, `cur` the address `self.cur_history`
holds. -/
structure RtnHeap where
  cells : List (List Nat)
  cur : Nat

/-- Dereference a history cell. -/
def heapHist (cells : List (List Nat)) (r : Nat) : List Nat := cells.getD r []

/-- `RtnPredictor.get_state` returns `self.cur_history` itself — the
reference, not a copy. -/
def rtnGetStateH (s : RtnHeap) : Nat := s.cur

/-- `RtnPredictor.consume` executes `self.cur_history.append(word)`:
the list object behind the reference is mutated in place. -/
def rtnConsumeH (s : RtnHeap) (word : Nat) : RtnHeap :=
  { cells := s.cells.set s.cur (heapHist s.cells s.cur ++ [word]), cur := s.cur }

/-- Heap model of the nondeterministic predictor's `cur_nodes`. -/
structure NfstHeap where
  cells : List (List (ℚ × Int))
  cur : Nat

/-- Dereference a frontier cell. -/
def heapFrontier (cells : List (List (ℚ × Int))) (r : Nat) : List (ℚ × Int) :=
  cells.getD r []

/-- `NondeterministicFstPredictor.get_state` returns `self.cur_nodes`
itself — the reference, not a copy. -/
def nfstGetStateH (s : NfstHeap) : Nat := s.cur

/-- `NondeterministicFstPredictor.consume` ends with
`self.cur_nodes = self._follow_eps(...)`: a freshly allocated list is
bound to the attribute, and the previously referenced object is left
untouched. -/
def nfstConsumeH (g? : Option Fst) (cfg : FstConfig) (fuel : Nat)
    (s : NfstHeap) (word : Nat) : Except NfstFail NfstHeap :=
  match nfstConsume g? cfg fuel (heapFrontier s.cells s.cur) word with
  | .ok p => .ok { cells := s.cells ++ [p.1], cur := s.cells.length }
  | .error e => .error e

/-- The constructor-default configuration of both lattice predictors:
`use_weights = True` (as the claims' examples assume),
`skip_bos_weight = True`, `to_log = True`. -/
def cfgDefault : FstConfig := ⟨true, true, true⟩

/-- Lattice for the C1 failing input: state 0 carries one arc labelled
5, so no arc matches the consumed word 7 while the frontier is
non-empty. -/
def c1Fst : Fst := ⟨0, fun n => if n = 0 then [⟨5, 5, 0, 1⟩] else []⟩

/-- Heap for the C2 counterexample: one live history list `[GO_ID]` at
address 0. -/
def c2Heap : RtnHeap := ⟨[[GO_ID]], 0⟩

/-- Lattice for the C4 counterexample: state 0 carries one arc labelled
with the unknown id, of weight 5, to state 9. -/
def c4Fst : Fst := ⟨0, fun n => if n = 0 then [⟨UNK_ID, UNK_ID, 5, 9⟩] else []⟩

/-- The example automaton of C6: start state 0, arc 0→1 labelled with
the begin marker of weight 0, arc 1→2 labelled 5 of weight 2, state 2
final (finality is irrelevant to `predict_next`, which only enumerates
arcs). -/
def c6Fst : Fst :=
  ⟨0, fun n =>
    if n = 0 then [⟨GO_ID, GO_ID, 0, 1⟩]
    else if n = 1 then [⟨5, 5, 2, 2⟩]
    else []⟩

/-- Running maximum with an optional seed: the shape in which
`d_unconsumed[next_node]` evolves (`get(..., NEG_INF) < next_score`). -/
def foldMaxO : Option ℚ → List ℚ → Option ℚ
  | o, [] => o
  | o, x :: rest =>
    foldMaxO (match o with
      | none => some x
      | some m => if m < x then some x else some m) rest

/-- Scores reachable from one frontier member into destination `n` by a
`word`-labelled arc. -/
def wordCandsArcs (cfg : FstConfig) (word : Nat) (n : Int) (w : ℚ)
    (arcs : List Arc) : List ℚ :=
  (arcs.filter (fun a => decide (a.olabel = word) && decide (a.nextstate = n))).map
    (fun a => w + weightFactor cfg * a.weight)

/-- All scores reachable from the frontier into destination `n` by a
`word`-labelled arc — the candidates among which `consume` keeps the
maximum. -/
def wordCands (g? : Option Fst) (cfg : FstConfig) (word : Nat) :
    List (ℚ × Int) → Int → List ℚ
  | [], _ => []
  | (w, nd) :: rest, n =>
    wordCandsArcs cfg word n w (arcsOf? g? nd) ++ wordCands g? cfg word rest n

/-- The lattice of the C5 counterexample: a begin-marker arc of weight
3 from the start state into state 1, which carries a non-epsilon arc so
that the closure keeps it. -/
def c5Fst : Fst :=
  ⟨0, fun n =>
    if n = 0 then [⟨GO_ID, GO_ID, 3, 1⟩]
    else if n = 1 then [⟨5, 5, 0, 2⟩]
    else []⟩

/-- State `m` has a non-epsilon outgoing arc (`has_noneps`). -/
def hasNE (A : Int → List Arc) (m : Int) : Prop :=
  ∃ a ∈ A m, a.olabel ≠ EPS_ID

/-- Every entry of `v` is bounded by the corresponding entry of `V`. -/
def vLE (v V : Int → Option ℚ) : Prop :=
  ∀ m x, v m = some x → ∃ y, V m = some y ∧ x ≤ y

/-- All epsilon relaxations out of `n` at score `s` are satisfied in
`V`. -/
def Relaxed (A : Int → List Arc) (c : ℚ) (V : Int → Option ℚ)
    (n : Int) (s : ℚ) : Prop :=
  ∀ a ∈ A n, a.olabel = EPS_ID →
    ∃ s', V a.nextstate = some s' ∧ s + c * a.weight ≤ s'

/-- `V` is an epsilon-relaxation fixpoint. -/
def RelaxedAll (A : Int → List Arc) (c : ℚ) (V : Int → Option ℚ) : Prop :=
  ∀ n s, V n = some s → Relaxed A c V n s

/-- `V` already carries the exact score of every state that has a
non-epsilon arc (the states `d` exposes). -/
def Pinned (A : Int → List Arc) (V v : Int → Option ℚ) : Prop :=
  ∀ k xk, V k = some xk → hasNE A k → v k = some xk

/-- Arcs for the C9 witness: state 0 carries an epsilon arc of weight 1
into state 1, which carries a non-epsilon arc. -/
def c9Arcs : Int → List Arc := fun n =>
  if n = 0 then [⟨EPS_ID, EPS_ID, 1, 1⟩]
  else if n = 1 then [⟨5, 5, 0, 2⟩]
  else []

theorem dget?_dset_self {κ α : Type} [DecidableEq κ] (d : List (κ × α))
    (k : κ) (v : α) : dget? (dset d k v) k = some v := by
  induction d with
  | nil => simp [dget?, dset]
  | cons p rest ih =>
    by_cases hp : p.1 = k
    · simp [dget?, dset, hp]
    · simp [dget?, dset, hp, ih]

theorem dget?_dset_ne {κ α : Type} [DecidableEq κ] (d : List (κ × α))
    (k k' : κ) (v : α) (hne : k' ≠ k) :
    dget? (dset d k v) k' = dget? d k' := by
  induction d with
  | nil => simp [dget?, dset, Ne.symm hne]
  | cons p rest ih =>
    by_cases hp : p.1 = k
    · subst hp
      simp [dget?, dset, Ne.symm hne]
    · simp [dget?, dset, hp, ih]

theorem dkeys_dset {κ α : Type} [DecidableEq κ] (d : List (κ × α))
    (k : κ) (v : α) :
    dkeys (dset d k v) = if (dget? d k).isSome then dkeys d else dkeys d ++ [k] := by
  induction d with
  | nil => simp [dkeys, dset, dget?]
  | cons p rest ih =>
    by_cases hp : p.1 = k
    · simp [dkeys, dset, dget?, hp]
    · by_cases hr : (dget? rest k).isSome
      · simp only [hr, if_true, dkeys] at ih
        simp [dkeys, dset, dget?, hp, hr, ih]
      · simp only [hr, if_false, Bool.false_eq_true, dkeys] at ih
        simp [dkeys, dset, dget?, hp, hr, ih]

theorem dget?_isSome_iff_mem_dkeys {κ α : Type} [DecidableEq κ]
    (d : List (κ × α)) (k : κ) :
    (dget? d k).isSome ↔ k ∈ dkeys d := by
  induction d with
  | nil => simp [dget?, dkeys]
  | cons p rest ih =>
    by_cases hp : p.1 = k
    · simp [dget?, dkeys, hp]
    · have hk : ¬(k = p.1) := fun h => hp h.symm
      simp only [dget?, if_neg hp]
      rw [ih]
      simp [dkeys, hk]

/-! ### Shared concrete material and helper lemmas -/

/-- A sorted list's last element is one of its members and bounds all
of them. -/
theorem sorted_getLast?_max {α : Type} [LinearOrder α] :
    ∀ {l : List α}, l.Sorted (· ≤ ·) → l ≠ [] →
      ∃ m, l.getLast? = some m ∧ m ∈ l ∧ ∀ x ∈ l, x ≤ m := by
  intro l
  induction l with
  | nil => intro _ h; exact absurd rfl h
  | cons a t ih =>
    intro hs _
    cases t with
    | nil => exact ⟨a, rfl, List.mem_singleton_self a, by simp⟩
    | cons b t' =>
      obtain ⟨m, hlast, hmem, hmax⟩ := ih hs.of_cons (by simp)
      refine ⟨m, ?_, List.mem_cons_of_mem _ hmem, ?_⟩
      · rw [List.getLast?_cons_cons]; exact hlast
      · intro x hx
        rcases List.mem_cons.mp hx with rfl | hx'
        · exact List.rel_of_sorted_cons hs m hmem
        · exact hmax x hx'

/-- Insertion sort maps permutation-equal lists to the same sorted
list. -/
theorem insertionSort_eq_of_perm {α : Type} [LinearOrder α]
    {l l' : List α} (h : l.Perm l') :
    List.insertionSort (· ≤ ·) l = List.insertionSort (· ≤ ·) l' :=
  List.eq_of_perm_of_sorted
    ((List.perm_insertionSort _ l).trans
      (h.trans (List.perm_insertionSort _ l').symm))
    (List.sorted_insertionSort _ l) (List.sorted_insertionSort _ l')

/-! ### C1 — nondeterministic consume with an unmatched word -/

/-- C1: the claim says an unmatched `consume(word)` on a non-empty
frontier silently invalidates the nondeterministic predictor; the code
instead raises `ValueError`, because `d_unconsumed` stays empty and
`score_max_func` — Python `max` — is applied to an empty sequence.
This theorem evaluates the embedded `consume` at the failing input:
frontier `{state 0: 0.0}`, default configuration, consumed word 7,
while state 0 only has an arc labelled 5. -/
theorem c1_consume_unmatched_raises :
    nfstConsume (some c1Fst) cfgDefault 5 [(0, 0)] 7 =
      .error .valueError := rfl

/-! ### C3 — initialize on a missing automaton -/

/-- C3: the claim says `initialize` on a missing automaton never
raises for every predictor variant.  For the nondeterministic variant
with its default `skip_bos_weight = True`, `initialize` sets
`cur_nodes = []` and then calls `consume(GO_ID)`, which applies `max`
to the empty `d_unconsumed.values()` and raises `ValueError` — the
warning right after the call is unreachable.  This theorem evaluates
the embedded `initialize` at the failing input (`load_fst` returned
`None`). -/
theorem c3_init_missing_automaton_raises :
    nfstInit none cfgDefault 5 = .error .valueError := rfl

/-! ### C10 — deterministic future-cost estimate at node 0 -/

/-- C10: for the deterministic lattice predictor, whenever `cur_node`
is the integer 0 — and likewise when it is the invalid `None` —
`estimate_future_cost` returns 0 regardless of the automaton's arcs and
of the distance table: the `not self.cur_node` truthiness check treats
node id 0 exactly like the invalid state, so the arc-matching distance
lookup is never performed at a valid state numbered 0. -/
theorem c10_estimate_future_cost_node_zero (g : Option Fst) (b : ℚ)
    (distances : Int → ℚ) (lastWord : Nat) :
    fstEstimateFutureCost ⟨g, some 0, b⟩ distances lastWord = 0 ∧
    fstEstimateFutureCost ⟨g, none, b⟩ distances lastWord = 0 := by
  constructor <;> simp [fstEstimateFutureCost, curNodeFalsy]

/-! ### C8 — nondeterministic is_equal depends only on state-id multisets -/

/-- C8: `NondeterministicFstPredictor.is_equal` depends only on the
multiset of state ids in the two snapshots — it is invariant under any
reordering of the `(score, state)` pairs and under arbitrary changes of
the scores. -/
theorem c8_is_equal_state_multiset (s1 s2 t1 t2 : List (ℚ × Int))
    (h1 : (t1.map (·.2)).Perm (s1.map (·.2)))
    (h2 : (t2.map (·.2)).Perm (s2.map (·.2))) :
    nfstIsEqual t1 t2 = nfstIsEqual s1 s2 := by
  unfold nfstIsEqual
  rw [insertionSort_eq_of_perm h1, insertionSort_eq_of_perm h2]

/-- Witness for C8 at concrete snapshots: reordering the pairs of
`[(0, 4), (7, 9)]` and replacing every score leaves `is_equal`
unchanged. -/
theorem c8_is_equal_state_multiset_witness :
    nfstIsEqual [(5, 9), (3, 4)] [(0, 4), (1, 9)] =
      nfstIsEqual [(0, 4), (7, 9)] [(2, 9), (2, 4)] :=
  c8_is_equal_state_multiset [(0, 4), (7, 9)] [(2, 9), (2, 4)]
    [(5, 9), (3, 4)] [(0, 4), (1, 9)] (by decide) (by decide)

/-! ### C2 — snapshots and aliasing -/

/-- C2 counterexample: `RtnPredictor.get_state` returns the live
history list itself, and `consume` then appends to that same object, so
the captured snapshot is not an independent copy — dereferencing it
after `consume(5)` yields a different value than at capture time. -/
theorem c2_counterexample :
    heapHist (rtnConsumeH c2Heap 5).cells (rtnGetStateH c2Heap) ≠
      heapHist c2Heap.cells (rtnGetStateH c2Heap) := by decide

/-- C2 amended: the deterministic predictor's snapshot (an integer)
round-trips through `set_state` unchanged; the nondeterministic
predictor's `get_state` hands out the frontier list without copying,
but `consume` rebinds `cur_nodes` to a freshly allocated list, so the
object behind a captured snapshot is unaffected; the RTN predictor's
`get_state` returns the live history list itself and `consume` appends
to it in place, so the captured snapshot mutates along. -/
theorem c2_amended :
    (∀ (s : RtnHeap) (w : Nat), s.cur < s.cells.length →
      heapHist (rtnConsumeH s w).cells (rtnGetStateH s) =
        heapHist s.cells (rtnGetStateH s) ++ [w]) ∧
    (∀ (g? : Option Fst) (cfg : FstConfig) (fuel : Nat) (s : NfstHeap)
        (w : Nat) (s' : NfstHeap), s.cur < s.cells.length →
      nfstConsumeH g? cfg fuel s w = .ok s' →
      heapFrontier s'.cells (nfstGetStateH s) =
        heapFrontier s.cells (nfstGetStateH s)) ∧
    (∀ (cfg : FstConfig) (s : FstPredState),
      fstPredictNext cfg (fstSetState s (fstGetState s)) =
        fstPredictNext cfg s) := by
  refine ⟨?_, ?_, ?_⟩
  · intro s w h
    unfold rtnConsumeH rtnGetStateH heapHist
    simp [List.getD, List.getElem?_set_self, h]
  · intro g? cfg fuel s w s' h hok
    unfold nfstConsumeH at hok
    cases hcons : nfstConsume g? cfg fuel (heapFrontier s.cells s.cur) w with
    | error e => rw [hcons] at hok; cases hok
    | ok p =>
      rw [hcons] at hok
      cases hok
      unfold heapFrontier nfstGetStateH
      simp [List.getD, List.getElem?_append_left h]
  · intro cfg s
    rfl

/-- Witness for C2 amended at a concrete heap: consuming word 5 on the
RTN predictor turns the snapshot's history `[1]` into `[1, 5]`, while
an allocating nondeterministic consume leaves the old frontier cell
unchanged. -/
theorem c2_amended_witness :
    heapHist (rtnConsumeH c2Heap 5).cells (rtnGetStateH c2Heap) =
      heapHist c2Heap.cells (rtnGetStateH c2Heap) ++ [5] :=
  c2_amended.1 c2Heap 5 (by decide)

/-! ### C4 — what consume returns -/

theorem fstConsumeArcs_found (cfg : FstConfig) (word : Nat) :
    ∀ (arcs : List Arc) (unk : Option Arc) (a : Arc),
      arcs.find? (fun x => decide (x.olabel = word)) = some a →
      fstConsumeArcs cfg word arcs unk =
        (some a.nextstate, some (weightFactor cfg * a.weight)) := by
  intro arcs
  induction arcs with
  | nil => intro unk a h; simp [List.find?] at h
  | cons x rest ih =>
    intro unk a h
    by_cases hx : x.olabel = word
    · rw [List.find?_cons_of_pos _ (by simp [hx])] at h
      cases h
      simp [fstConsumeArcs, hx]
    · rw [List.find?_cons_of_neg _ (by simp [hx])] at h
      by_cases hu : x.olabel = UNK_ID
      · simp only [fstConsumeArcs, if_neg hx, if_pos hu]
        exact ih _ a h
      · simp only [fstConsumeArcs, if_neg hx, if_neg hu]
        exact ih _ a h

theorem getLast?_cons_or {α : Type} (x : α) (l : List α) (u : Option α) :
    ((x :: l).getLast?).or u = (l.getLast?).or (some x) := by
  cases l with
  | nil => rfl
  | cons y t => rw [List.getLast?_cons_cons]; cases h : (y :: t).getLast? with
    | none => simp [List.getLast?] at h
    | some z => rfl

theorem fstConsumeArcs_unmatched (cfg : FstConfig) (word : Nat) :
    ∀ (arcs : List Arc) (unk : Option Arc),
      arcs.find? (fun x => decide (x.olabel = word)) = none →
      fstConsumeArcs cfg word arcs unk =
        ((((arcs.filter (fun x => decide (x.olabel = UNK_ID))).getLast?).or
            unk).map (·.nextstate), none) := by
  intro arcs
  induction arcs with
  | nil => intro unk _; simp [fstConsumeArcs, List.filter]
  | cons x rest ih =>
    intro unk h
    by_cases hx : x.olabel = word
    · rw [List.find?_cons_of_pos _ (by simp [hx])] at h
      simp at h
    rw [List.find?_cons_of_neg _ (by simp [hx])] at h
    by_cases hu : x.olabel = UNK_ID
    · simp only [fstConsumeArcs, if_neg hx, if_pos hu]
      rw [ih (some x) h, List.filter_cons_of_pos (by simp [hu]),
        getLast?_cons_or]
    · simp only [fstConsumeArcs, if_neg hx, if_neg hu]
      rw [ih unk h, List.filter_cons_of_neg (by simp [hu])]

/-- C4 counterexample: consuming word 7 at state 0 of `c4Fst` follows
the unknown fallback, so per the claim `consume` should return 0; the
code returns `None` (no value), which is not the number 0. -/
theorem c4_counterexample :
    (fstConsume cfgDefault ⟨some c4Fst, some 0, 0⟩ 7).2 = none ∧
    (fstConsume cfgDefault ⟨some c4Fst, some 0, 0⟩ 7).1.curNode = some 9 ∧
    (none : Option ℚ) ≠ some (0 : ℚ) := ⟨rfl, rfl, by decide⟩

/-- C4 amended: only the deterministic predictor's `consume` returns a
weight, and only when an arc labelled with the consumed word exists at
the current node; in every other case — unknown fallback, no arc,
predictor already invalid — it returns `None` rather than 0 (its only
caller coerces the `None` to 0.0); the nondeterministic and RTN
predictors' `consume` have no return statement at all and always return
`None`. -/
theorem c4_amended (cfg : FstConfig) (g? : Option Fst) (b : ℚ) (n : Int)
    (word : Nat) (a : Arc) (s : FstPredState) (fuel : Nat)
    (fr : List (ℚ × Int)) (p : List (ℚ × Int) × Option ℚ)
    (hist : List Nat) :
    (¬ n < 0 →
      (arcsOf? g? n).find? (fun x => decide (x.olabel = word)) = some a →
      fstConsume cfg ⟨g?, some n, b⟩ word =
        (⟨g?, some a.nextstate, b⟩, some (weightFactor cfg * a.weight))) ∧
    (¬ n < 0 →
      (arcsOf? g? n).find? (fun x => decide (x.olabel = word)) = none →
      fstConsume cfg ⟨g?, some n, b⟩ word =
        (⟨g?, (((arcsOf? g? n).filter
            (fun x => decide (x.olabel = UNK_ID))).getLast?).map (·.nextstate),
          b⟩, none)) ∧
    (curNodeInvalid s.curNode = true → fstConsume cfg s word = (s, none)) ∧
    (nfstConsume g? cfg fuel fr word = .ok p → p.2 = none) ∧
    rtnConsume hist word = (hist ++ [word], none) := by
  refine ⟨?_, ?_, ?_, ?_, rfl⟩
  · intro hn hfind
    unfold fstConsume
    rw [show curNodeInvalid (some n) = false by simp [curNodeInvalid, hn]]
    simp only [Bool.false_eq_true, if_false]
    rw [fstConsumeArcs_found cfg word _ none a hfind]
  · intro hn hfind
    unfold fstConsume
    rw [show curNodeInvalid (some n) = false by simp [curNodeInvalid, hn]]
    simp only [Bool.false_eq_true, if_false]
    rw [fstConsumeArcs_unmatched cfg word _ none hfind, Option.or_none]
  · intro h
    unfold fstConsume
    rw [h]
    simp
  · intro h
    unfold nfstConsume at h
    cases hcs : nfstConsumeState g? cfg fuel fr word with
    | error e => rw [hcs] at h; exact absurd h (by simp [Except.map])
    | ok st =>
      rw [hcs] at h
      simp only [Except.map] at h
      cases h
      rfl

/-- Witness for C4 amended: at state 0 of the C1 lattice, consuming the
matching word 5 moves to state 1 and returns the arc's (sign-flipped)
weight, and the RTN consume appends and returns `None`. -/
theorem c4_amended_witness :
    fstConsume cfgDefault ⟨some c1Fst, some 0, (0 : ℚ)⟩ 5 =
      (⟨some c1Fst, some 1, 0⟩, some (weightFactor cfgDefault * 0)) ∧
    rtnConsume [GO_ID] 5 = ([GO_ID, 5], none) :=
  ⟨(c4_amended cfgDefault (some c1Fst) 0 0 5 ⟨5, 5, 0, 1⟩ ⟨none, none, 0⟩ 0
      [] ([], none) []).1 (by decide) rfl,
    (c4_amended cfgDefault (some c1Fst) 0 0 5 ⟨5, 5, 0, 1⟩ ⟨none, none, 0⟩ 0
      [] ([], none) [GO_ID]).2.2.2.2⟩

/-! ### C6 — deterministic predict_next scores -/

/-- `getLast?` of a cons whose tail has a known last element. -/
theorem getLast?_cons_of_ne_nil {α : Type} {l : List α} {b : α} (a : α)
    (h : l.getLast? = some b) : (a :: l).getLast? = some b := by
  cases l with
  | nil => simp at h
  | cons y t => rw [List.getLast?_cons_cons]; exact h

/-- The score dict built by `predict_next`'s comprehension holds, for
each label, the weight of the last arc carrying that label. -/
theorem dget?_score_fold (f : Arc → ℚ) (w : Nat) :
    ∀ (l : List Arc) (init : List (Nat × ℚ)),
      dget? (l.foldl (fun sc arc => dset sc arc.olabel (f arc)) init) w =
        match (l.filter (fun a => decide (a.olabel = w))).getLast? with
        | some a => some (f a)
        | none => dget? init w := by
  intro l
  induction l with
  | nil => intro init; rfl
  | cons a rest ih =>
    intro init
    by_cases ha : a.olabel = w
    · rw [List.foldl_cons, ih (dset init a.olabel (f a)),
        List.filter_cons_of_pos (by simp [ha])]
      cases hlast : (rest.filter (fun x => decide (x.olabel = w))).getLast? with
      | some b => rw [getLast?_cons_of_ne_nil _ hlast]
      | none =>
        rw [List.getLast?_eq_none_iff] at hlast
        rw [hlast]
        simp [ha, dget?_dset_self]
    · rw [List.foldl_cons, ih (dset init a.olabel (f a)),
        List.filter_cons_of_neg (by simp [ha])]
      cases (rest.filter (fun x => decide (x.olabel = w))).getLast? with
      | some b => rfl
      | none => exact dget?_dset_ne init a.olabel w (f a) (fun h => ha h.symm)

/-- C6: with `to_log`, `skip_bos_weight` and weights enabled, the
deterministic predictor initialized on the example automaton returns
exactly `{5 ↦ -2}` from `predict_next`; and in general, at any valid
node carrying exactly one arc labelled `w`, `predict_next` scores `w`
with that arc's weight sign-flipped to the log domain. -/
theorem c6_predict_next_matches_arc_weight :
    fstPredictNext cfgDefault (fstInit cfgDefault (some c6Fst)) = [(5, -2)] ∧
    ∀ (cfg : FstConfig) (g : Fst) (n : Int) (b : ℚ) (w : Nat) (a : Arc),
      cfg.toLog = true → cfg.useWeights = true → cfg.skipBosWeight = true →
      ¬ n < 0 →
      (g.arcsOf n).filter (fun x => decide (x.olabel = w)) = [a] →
      dget? (fstPredictNext cfg ⟨some g, some n, b⟩) w = some (-a.weight) := by
  constructor
  · norm_num [fstPredictNext, fstInit, fstConsume, fstConsumeArcs, c6Fst,
      cfgDefault, arcsOf?, curNodeInvalid, weightFactor, dset, dget?,
      finalizePosterior, EOS_ID, GO_ID, UNK_ID]
  · intro cfg g n b w a hlog huw hskip hn hfilter
    unfold fstPredictNext
    simp only [if_neg hn, hskip]
    rw [show (match dget? ((arcsOf? (some g) n).foldl
        (fun sc arc => dset sc arc.olabel (weightFactor cfg * arc.weight)) []) EOS_ID,
        true with
      | some v, false => dset ((arcsOf? (some g) n).foldl
          (fun sc arc => dset sc arc.olabel (weightFactor cfg * arc.weight)) []) EOS_ID
          (v + b)
      | _, _ => ((arcsOf? (some g) n).foldl
          (fun sc arc => dset sc arc.olabel (weightFactor cfg * arc.weight)) [])) =
        ((arcsOf? (some g) n).foldl
          (fun sc arc => dset sc arc.olabel (weightFactor cfg * arc.weight)) []) by
      cases dget? ((arcsOf? (some g) n).foldl
        (fun sc arc => dset sc arc.olabel (weightFactor cfg * arc.weight)) []) EOS_ID with
      | some v => rfl
      | none => rfl]
    unfold finalizePosterior
    rw [if_pos huw, dget?_score_fold (fun arc => weightFactor cfg * arc.weight) w
      (arcsOf? (some g) n) []]
    show (match ((arcsOf? (some g) n).filter
        (fun x => decide (x.olabel = w))).getLast? with
      | some x => some (weightFactor cfg * x.weight)
      | none => dget? [] w) = some (-a.weight)
    have : arcsOf? (some g) n = g.arcsOf n := rfl
    rw [this, hfilter]
    show some (weightFactor cfg * a.weight) = some (-a.weight)
    rw [weightFactor, hlog]
    norm_num

/-- Witness for the general part of C6: on the example automaton, at
node 1 the single arc labelled 5 of weight 2 is scored `-2`. -/
theorem c6_predict_next_matches_arc_weight_witness :
    dget? (fstPredictNext cfgDefault ⟨some c6Fst, some 1, 0⟩) 5 =
      some (-(⟨5, 5, 2, 2⟩ : Arc).weight) :=
  c6_predict_next_matches_arc_weight.2 cfgDefault c6Fst 1 0 5 ⟨5, 5, 2, 2⟩
    rfl rfl rfl (by decide) (by decide)

/-! ### C7 — RTN root resolution -/

/-- C7: at `RtnPredictor` setup, (i) with the `ntmap` file absent or
unreadable the start nonterminal id defaults to `"1"` — giving the root
file pattern `"1001000"` — and a warning is logged; (ii) with the
direct root file inaccessible and several candidates matching the glob,
the lexicographically last candidate is read and a warning is logged;
(iii) with no candidate at all the root stays unloaded and an error is
logged, and (iv) `predict_next` without a loaded root returns the empty
map whatever the expansion would produce. -/
theorem c7_root_resolution :
    rtnCtorRootPat none = ("1001000", [LogMsg.warn]) ∧
    (∀ (rd : Option Fst) (cands : List String)
        (readCand : String → Option Fst), 1 < cands.length →
      ∃ chosen, chosen ∈ cands ∧ (∀ x ∈ cands, x ≤ chosen) ∧
        rtnResolveRoot false rd cands readCand =
          (readCand chosen,
            if (readCand chosen).isSome then [LogMsg.warn]
            else [LogMsg.warn, LogMsg.error])) ∧
    (∀ (rd : Option Fst) (readCand : String → Option Fst),
      rtnResolveRoot false rd [] readCand = (none, [LogMsg.error])) ∧
    (∀ (uw : Bool) (expand : Fst → List Nat → List (Nat × ℚ))
        (hist : List Nat), rtnPredictNext none uw expand hist = []) := by
  refine ⟨by decide, ?_, fun rd readCand => rfl, fun uw expand hist => rfl⟩
  intro rd cands readCand hlen
  have hsorted := List.sorted_insertionSort (α := String) (· ≤ ·) cands
  have hperm := List.perm_insertionSort (α := String) (· ≤ ·) cands
  have hne : List.insertionSort (· ≤ ·) cands ≠ [] := by
    intro h
    rw [h] at hperm
    have := hperm.length_eq
    simp at this
    omega
  obtain ⟨m, hlast, hmem, hmax⟩ := sorted_getLast?_max hsorted hne
  refine ⟨m, hperm.mem_iff.mp hmem, fun x hx => hmax x (hperm.mem_iff.mpr hx), ?_⟩
  cases cands with
  | nil => simp at hlen
  | cons c rest =>
    unfold rtnResolveRoot
    simp only [Bool.false_eq_true, if_false, if_pos hlen]
    rw [hlast]
    cases hrc : readCand m with
    | some g => simp [hrc]
    | none => simp [hrc]

/-- Witness for C7 at a concrete file system: two candidate root files
both unreadable — the lexicographically last is attempted, a warning
and then an error are logged, and the predictor stays invalid. -/
theorem c7_root_resolution_witness :
    rtnResolveRoot false none ["1001000020.fst", "1001000010.fst"]
      (fun _ => none) = (none, [LogMsg.warn, LogMsg.error]) := by
  obtain ⟨chosen, hmem, hmax, heq⟩ :=
    c7_root_resolution.2.1 none ["1001000020.fst", "1001000010.fst"]
      (fun _ => none) (by decide)
  simpa using heq

/-! ### C5 — nondeterministic consume: max per destination, renormalization -/

theorem foldMaxO_append (o : Option ℚ) (l1 l2 : List ℚ) :
    foldMaxO o (l1 ++ l2) = foldMaxO (foldMaxO o l1) l2 := by
  induction l1 generalizing o with
  | nil => rfl
  | cons x rest ih => simp only [List.cons_append, foldMaxO]; exact ih _

theorem foldMaxO_some_spec (l : List ℚ) :
    ∀ m : ℚ, ∃ q, foldMaxO (some m) l = some q ∧ q ∈ m :: l ∧
      ∀ x ∈ m :: l, x ≤ q := by
  induction l with
  | nil => intro m; exact ⟨m, rfl, by simp, by simp⟩
  | cons x rest ih =>
    intro m
    by_cases h : m < x
    · obtain ⟨q, hq, hmem, hmax⟩ := ih x
      refine ⟨q, by simp [foldMaxO, h]; exact hq, ?_, ?_⟩
      · rcases List.mem_cons.mp hmem with rfl | hq'
        · simp
        · simp [List.mem_cons.mpr (Or.inr hq')]
      · intro y hy
        rcases List.mem_cons.mp hy with rfl | hy'
        · exact le_trans h.le (hmax x (by simp))
        · rcases List.mem_cons.mp hy' with rfl | hy''
          · exact hmax y (by simp)
          · exact hmax y (List.mem_cons.mpr (Or.inr hy''))
    · obtain ⟨q, hq, hmem, hmax⟩ := ih m
      refine ⟨q, by simp [foldMaxO, h]; exact hq, ?_, ?_⟩
      · rcases List.mem_cons.mp hmem with rfl | hq'
        · simp
        · simp [List.mem_cons.mpr (Or.inr hq')]
      · intro y hy
        rcases List.mem_cons.mp hy with rfl | hy'
        · exact hmax y (by simp)
        · rcases List.mem_cons.mp hy' with rfl | hy''
          · exact le_trans (not_lt.mp h) (hmax m (by simp))
          · exact hmax y (List.mem_cons.mpr (Or.inr hy''))

theorem foldMaxO_none_spec (l : List ℚ) (q : ℚ)
    (h : foldMaxO none l = some q) : q ∈ l ∧ ∀ x ∈ l, x ≤ q := by
  cases l with
  | nil => simp [foldMaxO] at h
  | cons x rest =>
    obtain ⟨q', hq', hmem, hmax⟩ := foldMaxO_some_spec rest x
    rw [show foldMaxO none (x :: rest) = foldMaxO (some x) rest from rfl,
      hq'] at h
    cases h
    exact ⟨hmem, hmax⟩

theorem foldMaxO_none_eq_none (l : List ℚ)
    (h : foldMaxO none l = none) : l = [] := by
  cases l with
  | nil => rfl
  | cons x rest =>
    obtain ⟨q', hq', _, _⟩ := foldMaxO_some_spec rest x
    rw [show foldMaxO none (x :: rest) = foldMaxO (some x) rest from rfl,
      hq'] at h
    cases h

/-- Per-destination effect of the inner arc loop of `consume`: at key
`n` the dict evolves by taking the running maximum over the matching
arcs into `n`. -/
theorem dget?_dUnconsumedArcs (cfg : FstConfig) (word : Nat) (n : Int)
    (w : ℚ) :
    ∀ (arcs : List Arc) (d : List (Int × ℚ)),
      dget? (dUnconsumedArcs cfg word w arcs d) n =
        foldMaxO (dget? d n) (wordCandsArcs cfg word n w arcs) := by
  intro arcs
  induction arcs with
  | nil => intro d; rfl
  | cons a rest ih =>
    intro d
    by_cases hl : a.olabel = word
    · by_cases hn : a.nextstate = n
      · subst hn
        have hfil : (a :: rest).filter
            (fun x => decide (x.olabel = word) && decide (x.nextstate = a.nextstate)) =
            a :: rest.filter
              (fun x => decide (x.olabel = word) && decide (x.nextstate = a.nextstate)) :=
          List.filter_cons_of_pos (by simp [hl])
        simp only [dUnconsumedArcs, if_pos hl, wordCandsArcs, hfil,
          List.map_cons] at ih ⊢
        rw [show foldMaxO (dget? d a.nextstate)
            ((w + weightFactor cfg * a.weight) ::
              (rest.filter (fun x => decide (x.olabel = word) &&
                decide (x.nextstate = a.nextstate))).map
                  (fun a => w + weightFactor cfg * a.weight)) =
          foldMaxO (match dget? d a.nextstate with
            | none => some (w + weightFactor cfg * a.weight)
            | some m => if m < w + weightFactor cfg * a.weight then
                some (w + weightFactor cfg * a.weight) else some m)
            ((rest.filter (fun x => decide (x.olabel = word) &&
                decide (x.nextstate = a.nextstate))).map
                  (fun a => w + weightFactor cfg * a.weight)) from rfl]
        cases hd : dget? d a.nextstate with
        | none =>
          dsimp only
          rw [ih]
          congr 1
          rw [dget?_dset_self]
        | some old =>
          dsimp only
          by_cases hlt : old < w + weightFactor cfg * a.weight
          · rw [if_pos hlt, if_pos hlt, ih]
            congr 1
            rw [dget?_dset_self]
          · rw [if_neg hlt, if_neg hlt, ih, hd]
      · have hfil : (a :: rest).filter
            (fun x => decide (x.olabel = word) && decide (x.nextstate = n)) =
            rest.filter
              (fun x => decide (x.olabel = word) && decide (x.nextstate = n)) :=
          List.filter_cons_of_neg (by simp [hn])
        have hne : n ≠ a.nextstate := fun h => hn h.symm
        simp only [dUnconsumedArcs, if_pos hl, wordCandsArcs, hfil] at ih ⊢
        cases hd : dget? d a.nextstate with
        | none => dsimp only; rw [ih, dget?_dset_ne _ _ _ _ hne]
        | some old =>
          dsimp only
          by_cases hlt : old < w + weightFactor cfg * a.weight
          · rw [if_pos hlt, ih, dget?_dset_ne _ _ _ _ hne]
          · rw [if_neg hlt, ih]
    · have hfil : (a :: rest).filter
          (fun x => decide (x.olabel = word) && decide (x.nextstate = n)) =
          rest.filter
            (fun x => decide (x.olabel = word) && decide (x.nextstate = n)) :=
        List.filter_cons_of_neg (by simp [hl])
      simp only [dUnconsumedArcs, if_neg hl, wordCandsArcs, hfil]
      exact ih d

/-- Per-destination effect of `consume`'s frontier loop: the
`d_unconsumed` dict holds, at each destination, the running maximum of
all candidate scores. -/
theorem dget?_dUnconsumed (g? : Option Fst) (cfg : FstConfig) (word : Nat)
    (n : Int) :
    ∀ (frontier : List (ℚ × Int)) (d : List (Int × ℚ)),
      dget? (dUnconsumed g? cfg word frontier d) n =
        foldMaxO (dget? d n) (wordCands g? cfg word frontier n) := by
  intro frontier
  induction frontier with
  | nil => intro d; rfl
  | cons wn rest ih =>
    intro d
    obtain ⟨w, nd⟩ := wn
    simp only [dUnconsumed, wordCands, foldMaxO_append]
    rw [ih, dget?_dUnconsumedArcs]

theorem foldl_max_spec :
    ∀ (l : List ℚ) (v : ℚ), l.foldl max v ∈ v :: l ∧
      ∀ x ∈ v :: l, x ≤ l.foldl max v := by
  intro l
  induction l with
  | nil => intro v; exact ⟨by simp, by simp⟩
  | cons x rest ih =>
    intro v
    obtain ⟨hmem, hmax⟩ := ih (max v x)
    rw [show (x :: rest).foldl max v = rest.foldl max (max v x) from rfl]
    constructor
    · rcases List.mem_cons.mp hmem with heq | hmem'
      · rcases max_choice v x with h | h <;> rw [heq, h]
        · simp
        · simp
      · simp [hmem']
    · intro y hy
      rcases List.mem_cons.mp hy with rfl | hy'
      · exact le_trans (le_max_left y x) (hmax _ (by simp))
      · rcases List.mem_cons.mp hy' with rfl | hy''
        · exact le_trans (le_max_right v y) (hmax _ (by simp))
        · exact hmax y (by simp [hy''])

/-- `score_max_func` with `to_log` set is Python `max`: when it
returns, its value is a member of the list bounding all members. -/
theorem pyMax_true_spec (l : List ℚ) (m : ℚ) (h : pyMax true l = some m) :
    m ∈ l ∧ ∀ x ∈ l, x ≤ m := by
  cases l with
  | nil => simp [pyMax] at h
  | cons v rest =>
    have h' : rest.foldl max v = m := by
      have : pyMax true (v :: rest) = some (rest.foldl max v) := rfl
      rw [this] at h
      exact Option.some_injective _ h
    obtain ⟨hmem, hmax⟩ := foldl_max_spec rest v
    rw [h'] at hmem hmax
    exact ⟨hmem, hmax⟩

/-- C5 counterexample: on the very first, begin-marker consume with
`skip_bos_weight = True` (the default), the claim says nothing is
subtracted, predicting the frontier `[(-3, 1)]` after consuming the
begin marker over its weight-3 arc; the code takes the
`score_max_func` branch precisely in this configuration and subtracts
the best score, yielding `[(0, 1)]`. -/
theorem c5_counterexample :
    nfstConsumeState (some c5Fst) cfgDefault 5 [(0, 0)] GO_ID =
      .ok [(0, 1)] ∧
    [((0 : ℚ), (1 : Int))] ≠ [((-3 : ℚ), 1)] := by
  constructor
  · norm_num [nfstConsumeState, dUnconsumed, dUnconsumedArcs, c5Fst,
      cfgDefault, arcsOf?, weightFactor, dget?, dset, pyMax, followEps,
      epsLoop, epsRound, epsNodeStep, relaxArc, negInfLt, rootsFun, GO_ID,
      EPS_ID]
  · decide

/-- C5 amended: `consume(word)` keeps per destination state the maximum
reachable score (parts one and two), then subtracts the best resulting
score from all destinations and epsilon-closes — except that the
no-subtraction case is the begin-marker consume when the predictor is
configured NOT to skip the begin-marker weight (`skip_bos_weight =
False`); with `skip_bos_weight = True` the begin-marker consume does
renormalize (parts three and four). -/
theorem c5_consume_renormalizes (g? : Option Fst) (cfg : FstConfig)
    (fuel : Nat) (frontier : List (ℚ × Int)) (word : Nat)
    (hlog : cfg.toLog = true) :
    (∀ n q, dget? (dUnconsumed g? cfg word frontier []) n = some q →
      q ∈ wordCands g? cfg word frontier n ∧
        ∀ x ∈ wordCands g? cfg word frontier n, x ≤ q) ∧
    (∀ n, dget? (dUnconsumed g? cfg word frontier []) n = none →
      wordCands g? cfg word frontier n = []) ∧
    (∀ m, (word ≠ GO_ID ∨ cfg.skipBosWeight = true) →
      pyMax cfg.toLog ((dUnconsumed g? cfg word frontier []).map (·.2)) =
        some m →
      (m ∈ (dUnconsumed g? cfg word frontier []).map (·.2) ∧
        ∀ x ∈ (dUnconsumed g? cfg word frontier []).map (·.2), x ≤ m) ∧
      nfstConsumeState g? cfg fuel frontier word =
        (match followEps (arcsOf? g?) (weightFactor cfg) fuel
            ((dUnconsumed g? cfg word frontier []).map
              fun p => (p.1, p.2 - m)) with
          | some fr => .ok fr
          | none => .error .noFuel)) ∧
    (word = GO_ID → cfg.skipBosWeight = false →
      nfstConsumeState g? cfg fuel frontier word =
        (match followEps (arcsOf? g?) (weightFactor cfg) fuel
            ((dUnconsumed g? cfg word frontier []).map
              fun p => (p.1, p.2 - 0)) with
          | some fr => .ok fr
          | none => .error .noFuel)) := by
  refine ⟨?_, ?_, ?_, ?_⟩
  · intro n q hq
    rw [dget?_dUnconsumed] at hq
    exact foldMaxO_none_spec _ _ hq
  · intro n hq
    rw [dget?_dUnconsumed] at hq
    exact foldMaxO_none_eq_none _ hq
  · intro m hcond hmax
    constructor
    · rw [hlog] at hmax
      exact pyMax_true_spec _ _ hmax
    · unfold nfstConsumeState
      dsimp only
      rw [if_pos hcond, hmax]
  · intro hword hskip
    unfold nfstConsumeState
    dsimp only
    rw [if_neg (show ¬(word ≠ GO_ID ∨ cfg.skipBosWeight = true) by
      simp [hword, hskip])]

/-- Witness for C5 amended on the counterexample lattice: the single
begin-marker candidate score `-3` into state 1 is the kept per-state
maximum. -/
theorem c5_consume_renormalizes_witness :
    (-3 : ℚ) ∈ wordCands (some c5Fst) cfgDefault GO_ID [(0, 0)] 1 ∧
      ∀ x ∈ wordCands (some c5Fst) cfgDefault GO_ID [(0, 0)] 1, x ≤ -3 :=
  (c5_consume_renormalizes (some c5Fst) cfgDefault 5 [(0, 0)] GO_ID rfl).1 1
    (-3) (by norm_num [dUnconsumed, dUnconsumedArcs, c5Fst, cfgDefault,
      arcsOf?, weightFactor, dget?, dset, GO_ID])

/-! ### C9 — epsilon closure is idempotent

The proof extracts from a terminating `_follow_eps` run that its final
`visited` map `V` is a relaxation fixpoint whose restriction to states
with a non-epsilon arc is exactly `d`, and then shows that re-running
the closure from `d` can never improve on `V`, leaving `d` unchanged. -/

theorem Relaxed.mono {A : Int → List Arc} {c : ℚ} {v v' : Int → Option ℚ}
    {n : Int} {s : ℚ} (h : Relaxed A c v n s) (hm : vLE v v') :
    Relaxed A c v' n s := by
  intro a ha hw
  obtain ⟨s', hs', hle⟩ := h a ha hw
  obtain ⟨y, hy, hle'⟩ := hm _ _ hs'
  exact ⟨y, hy, le_trans hle hle'⟩

theorem dset_mem {κ α : Type} [DecidableEq κ] {d : List (κ × α)}
    {k : κ} {v : α} {p : κ × α} (h : p ∈ dset d k v) :
    p = (k, v) ∨ p ∈ d := by
  induction d with
  | nil => simp [dset] at h; simp [h]
  | cons q rest ih =>
    by_cases hq : q.1 = k
    · rw [dset, if_pos hq] at h
      rcases List.mem_cons.mp h with rfl | h'
      · exact Or.inl rfl
      · exact Or.inr (List.mem_cons_of_mem _ h')
    · rw [dset, if_neg hq] at h
      rcases List.mem_cons.mp h with rfl | h'
      · exact Or.inr (List.mem_cons_self _ _)
      · rcases ih h' with h'' | h''
        · exact Or.inl h''
        · exact Or.inr (List.mem_cons_of_mem _ h'')

theorem dset_self_mem {κ α : Type} [DecidableEq κ] (d : List (κ × α))
    (k : κ) (v : α) : (k, v) ∈ dset d k v := by
  induction d with
  | nil => simp [dset]
  | cons q rest ih =>
    by_cases hq : q.1 = k
    · simp [dset, hq]
    · rw [dset, if_neg hq]
      exact List.mem_cons_of_mem _ ih

theorem dkeys_nodup_dset {κ α : Type} [DecidableEq κ] {d : List (κ × α)}
    (k : κ) (v : α) (h : (dkeys d).Nodup) : (dkeys (dset d k v)).Nodup := by
  rw [dkeys_dset]
  by_cases hs : (dget? d k).isSome
  · simp [hs, h]
  · simp only [hs, Bool.false_eq_true, if_false]
    rw [List.nodup_append]
    refine ⟨h, List.nodup_singleton k, ?_⟩
    intro x hx hk
    rw [List.mem_singleton] at hk
    subst hk
    exact hs ((dget?_isSome_iff_mem_dkeys d x).mpr hx)

theorem dget?_eq_of_mem {κ α : Type} [DecidableEq κ] {d : List (κ × α)}
    (hnd : (dkeys d).Nodup) {p : κ × α} (h : p ∈ d) :
    dget? d p.1 = some p.2 := by
  induction d with
  | nil => simp at h
  | cons q rest ih =>
    rcases List.mem_cons.mp h with rfl | h'
    · simp [dget?]
    · have hq : q.1 ≠ p.1 := by
        intro hc
        rw [dkeys, List.map_cons, List.nodup_cons] at hnd
        exact hnd.1 (hc ▸ List.mem_map_of_mem (·.1) h')
      rw [dget?, if_neg hq]
      exact ih (by
        rw [dkeys, List.map_cons, List.nodup_cons] at hnd
        exact hnd.2) h'

theorem mem_of_dget? {κ α : Type} [DecidableEq κ] {d : List (κ × α)}
    {k : κ} {v : α} (h : dget? d k = some v) : (k, v) ∈ d := by
  induction d with
  | nil => simp [dget?] at h
  | cons q rest ih =>
    by_cases hq : q.1 = k
    · rw [dget?, if_pos hq] at h
      cases h
      have : (k, q.2) = q := by rw [← hq]
      rw [this]
      exact List.mem_cons_self _ _
    · rw [dget?, if_neg hq] at h
      exact List.mem_cons_of_mem _ (ih h)

theorem dset_eq_append_of_not_mem {κ α : Type} [DecidableEq κ]
    {d : List (κ × α)} {k : κ} (v : α) (h : ¬ k ∈ dkeys d) :
    dset d k v = d ++ [(k, v)] := by
  induction d with
  | nil => rfl
  | cons q rest ih =>
    have hq : q.1 ≠ k := by
      intro hc
      exact h (by simp [dkeys, hc.symm])
    rw [dset, if_neg hq, List.cons_append,
      ih (fun hc => h (by simp [dkeys] at hc ⊢; exact Or.inr hc))]

/-- Entries of a key-unique dict survive `dset` at a different key. -/
theorem mem_dset_of_ne {κ α : Type} [DecidableEq κ] {d : List (κ × α)}
    {k : κ} {v : α} {p : κ × α} (hp : p ∈ d) (hne : p.1 ≠ k) :
    p ∈ dset d k v := by
  induction d with
  | nil => simp at hp
  | cons q rest ih =>
    by_cases hq : q.1 = k
    · rw [dset, if_pos hq]
      rcases List.mem_cons.mp hp with rfl | h'
      · exact absurd hq hne
      · exact List.mem_cons_of_mem _ h'
    · rw [dset, if_neg hq]
      rcases List.mem_cons.mp hp with rfl | h'
      · exact List.mem_cons_self _ _
      · exact List.mem_cons_of_mem _ (ih h')

/-- In a key-unique dict, a surviving entry of `dset` at a different
key was already present. -/
theorem mem_of_mem_dset_ne {κ α : Type} [DecidableEq κ]
    {d : List (κ × α)} {k : κ} {v : α} {p : κ × α}
    (hp : p ∈ dset d k v) (hne : p.1 ≠ k) : p ∈ d := by
  rcases dset_mem hp with rfl | h
  · exact absurd rfl hne
  · exact h

/-- In a key-unique dict, membership in `dset d k v` is either the new
pair or an old pair at a different key. -/
theorem mem_dset_ne_of_nodup {κ α : Type} [DecidableEq κ]
    {d : List (κ × α)} {k : κ} {v : α} {p : κ × α}
    (hnd : (dkeys d).Nodup) (hp : p ∈ dset d k v) :
    p = (k, v) ∨ (p ∈ d ∧ p.1 ≠ k) := by
  induction d with
  | nil => simp [dset] at hp; simp [hp]
  | cons q rest ih =>
    rw [dkeys, List.map_cons, List.nodup_cons] at hnd
    by_cases hq : q.1 = k
    · rw [dset, if_pos hq] at hp
      rcases List.mem_cons.mp hp with rfl | h'
      · exact Or.inl rfl
      · refine Or.inr ⟨List.mem_cons_of_mem _ h', ?_⟩
        intro hc
        exact hnd.1 (hq ▸ hc ▸ List.mem_map_of_mem (·.1) h')
    · rw [dset, if_neg hq] at hp
      rcases List.mem_cons.mp hp with rfl | h'
      · exact Or.inr ⟨List.mem_cons_self _ _, hq⟩
      · rcases ih hnd.2 h' with h'' | ⟨h1, h2⟩
        · exact Or.inl h''
        · exact Or.inr ⟨List.mem_cons_of_mem _ h1, h2⟩

theorem vLE_refl (v : Int → Option ℚ) : vLE v v :=
  fun m x h => ⟨x, h, le_refl x⟩

theorem vLE_trans {u v w : Int → Option ℚ} (h1 : vLE u v) (h2 : vLE v w) :
    vLE u w := by
  intro m x hx
  obtain ⟨y, hy, hxy⟩ := h1 m x hx
  obtain ⟨z, hz, hyz⟩ := h2 m y hy
  exact ⟨z, hz, le_trans hxy hyz⟩

theorem relaxArc_mono (v : Int → Option ℚ) (no : List (Int × ℚ))
    (ns : ℚ) (t : Int) : vLE v (relaxArc v no ns t).1 := by
  intro m x hx
  unfold relaxArc
  by_cases hup : negInfLt (v t) ns = true
  · rw [if_pos hup]
    by_cases hm : m = t
    · subst hm
      rw [hx] at hup
      unfold negInfLt at hup
      exact ⟨ns, by simp, (of_decide_eq_true hup).le⟩
    · exact ⟨x, by simp [hm, hx], le_refl x⟩
  · rw [if_neg hup]
    exact ⟨x, hx, le_refl x⟩

theorem relaxArc_relaxes (v : Int → Option ℚ) (no : List (Int × ℚ))
    (ns : ℚ) (t : Int) :
    ∃ y, (relaxArc v no ns t).1 t = some y ∧ ns ≤ y := by
  unfold relaxArc
  by_cases hup : negInfLt (v t) ns = true
  · rw [if_pos hup]
    exact ⟨ns, by simp, le_refl ns⟩
  · rw [if_neg hup]
    unfold negInfLt at hup
    cases hv : v t with
    | some old =>
      rw [hv] at hup
      simp only [decide_eq_true_eq] at hup
      exact ⟨old, hv, not_lt.mp hup⟩
    | none => rw [hv] at hup; simp at hup

theorem epsNodeStep_mono (c s : ℚ) :
    ∀ (arcs : List Arc) (v : Int → Option ℚ) (no : List (Int × ℚ))
      (hn : Bool), vLE v (epsNodeStep c s arcs v no hn).1 := by
  intro arcs
  induction arcs with
  | nil => intro v no hn; exact vLE_refl v
  | cons a rest ih =>
    intro v no hn
    by_cases ha : a.olabel = EPS_ID
    · rw [epsNodeStep, if_pos ha]
      exact vLE_trans (relaxArc_mono v no (s + c * a.weight) a.nextstate)
        (ih _ _ hn)
    · rw [epsNodeStep, if_neg ha]
      exact ih v no true

theorem epsNodeStep_relaxes (c s : ℚ) :
    ∀ (arcs : List Arc) (v : Int → Option ℚ) (no : List (Int × ℚ))
      (hn : Bool), ∀ a ∈ arcs, a.olabel = EPS_ID →
      ∃ y, (epsNodeStep c s arcs v no hn).1 a.nextstate = some y ∧
        s + c * a.weight ≤ y := by
  intro arcs
  induction arcs with
  | nil => intro v no hn a ha; simp at ha
  | cons b rest ih =>
    intro v no hn a ha hw
    rcases List.mem_cons.mp ha with rfl | ha'
    · rw [epsNodeStep, if_pos hw]
      obtain ⟨y, hy, hle⟩ :=
        relaxArc_relaxes v no (s + c * a.weight) a.nextstate
      obtain ⟨z, hz, hyz⟩ :=
        epsNodeStep_mono c s rest _ _ hn a.nextstate y hy
      exact ⟨z, hz, le_trans hle hyz⟩
    · by_cases hb : b.olabel = EPS_ID
      · rw [epsNodeStep, if_pos hb]
        exact ih _ _ hn a ha' hw
      · rw [epsNodeStep, if_neg hb]
        exact ih v no true a ha' hw

theorem epsNodeStep_hn (c s : ℚ) :
    ∀ (arcs : List Arc) (v : Int → Option ℚ) (no : List (Int × ℚ))
      (hn : Bool), (epsNodeStep c s arcs v no hn).2.2 =
        (hn || arcs.any (fun a => decide (a.olabel ≠ EPS_ID))) := by
  intro arcs
  induction arcs with
  | nil => intro v no hn; simp [epsNodeStep]
  | cons a rest ih =>
    intro v no hn
    by_cases ha : a.olabel = EPS_ID
    · rw [epsNodeStep, if_pos ha, ih]
      simp [ha]
    · rw [epsNodeStep, if_neg ha, ih]
      simp [ha]

theorem relaxArc_sync {v : Int → Option ℚ} {no : List (Int × ℚ)}
    (ns : ℚ) (t : Int) (hnd : (dkeys no).Nodup)
    (hs : ∀ p ∈ no, v p.1 = some p.2) :
    (dkeys (relaxArc v no ns t).2).Nodup ∧
    (∀ p ∈ (relaxArc v no ns t).2, (relaxArc v no ns t).1 p.1 = some p.2) ∧
    (∀ m y, (relaxArc v no ns t).1 m = some y →
      v m = some y ∨ (m, y) ∈ (relaxArc v no ns t).2) ∧
    (∀ p ∈ no, (relaxArc v no ns t).1 p.1 = some p.2 →
      p ∈ (relaxArc v no ns t).2) := by
  unfold relaxArc
  by_cases hup : negInfLt (v t) ns = true
  · rw [if_pos hup]
    dsimp only
    refine ⟨dkeys_nodup_dset t ns hnd, ?_, ?_, ?_⟩
    · intro p hp
      rcases mem_dset_ne_of_nodup hnd hp with rfl | ⟨hpno, hpne⟩
      · simp
      · simp only [if_neg hpne]
        exact hs p hpno
    · intro m y hy
      by_cases hm : m = t
      · rw [if_pos hm] at hy
        cases hy
        rw [hm]
        exact Or.inr (dset_self_mem no t ns)
      · simp only [if_neg hm] at hy
        exact Or.inl hy
    · intro p hp hpv
      have hpt : p.1 ≠ t := by
        intro hc
        have hv := hs p hp
        rw [hc] at hv
        rw [if_pos hc] at hpv
        injection hpv with hpv2
        rw [hv] at hup
        unfold negInfLt at hup
        simp only [decide_eq_true_eq] at hup
        rw [← hpv2] at hup
        exact absurd hup (lt_irrefl _)
      exact mem_dset_of_ne hp hpt
  · rw [if_neg hup]
    exact ⟨hnd, hs, fun m y hy => Or.inl hy, fun p hp _ => hp⟩

theorem epsNodeStep_sync (c s : ℚ) :
    ∀ (arcs : List Arc) (v : Int → Option ℚ) (no : List (Int × ℚ))
      (hn : Bool), (dkeys no).Nodup → (∀ p ∈ no, v p.1 = some p.2) →
      (dkeys (epsNodeStep c s arcs v no hn).2.1).Nodup ∧
      (∀ p ∈ (epsNodeStep c s arcs v no hn).2.1,
        (epsNodeStep c s arcs v no hn).1 p.1 = some p.2) ∧
      (∀ m y, (epsNodeStep c s arcs v no hn).1 m = some y →
        v m = some y ∨ (m, y) ∈ (epsNodeStep c s arcs v no hn).2.1) ∧
      (∀ p ∈ no, (epsNodeStep c s arcs v no hn).1 p.1 = some p.2 →
        p ∈ (epsNodeStep c s arcs v no hn).2.1) := by
  intro arcs
  induction arcs with
  | nil =>
    intro v no hn hnd hs
    exact ⟨hnd, hs, fun m y hy => Or.inl hy, fun p hp _ => hp⟩
  | cons a rest ih =>
    intro v no hn hnd hs
    by_cases ha : a.olabel = EPS_ID
    · rw [epsNodeStep, if_pos ha]
      obtain ⟨hnd1, hs1, hch1, hsur1⟩ :=
        relaxArc_sync (s + c * a.weight) a.nextstate hnd hs
      obtain ⟨hnd2, hs2, hch2, hsur2⟩ := ih _ _ hn hnd1 hs1
      refine ⟨hnd2, hs2, ?_, ?_⟩
      · intro m y hy
        rcases hch2 m y hy with h1 | h1
        · rcases hch1 m y h1 with h2 | h2
          · exact Or.inl h2
          · exact Or.inr (hsur2 (m, y) h2 hy)
        · exact Or.inr h1
      · intro p hp hpv
        have h1 := hsur1 p hp
        rcases hch2 p.1 p.2 hpv with h2 | h2
        · exact hsur2 p (h1 h2) hpv
        · have : p = (p.1, p.2) := rfl
          rw [this]
          exact h2
    · rw [epsNodeStep, if_neg ha]
      exact ih v no true hnd hs

theorem relaxArc_bounded (A : Int → List Arc) {V v : Int → Option ℚ}
    {no : List (Int × ℚ)} {ns : ℚ} {t : Int}
    (hb : vLE v V) (hpin : Pinned A V v)
    (hrelV : ∃ s', V t = some s' ∧ ns ≤ s') :
    vLE (relaxArc v no ns t).1 V ∧ Pinned A V (relaxArc v no ns t).1 ∧
    (∀ p ∈ (relaxArc v no ns t).2, p ∈ no ∨ ¬ hasNE A p.1) := by
  obtain ⟨sV, hsV, hnsV⟩ := hrelV
  unfold relaxArc
  by_cases hup : negInfLt (v t) ns = true
  · rw [if_pos hup]
    dsimp only
    have htNE : ¬ hasNE A t := by
      intro hne
      have hvt := hpin t sV hsV hne
      rw [hvt] at hup
      unfold negInfLt at hup
      simp only [decide_eq_true_eq] at hup
      exact absurd (lt_of_le_of_lt hnsV hup) (lt_irrefl _)
    refine ⟨?_, ?_, ?_⟩
    · intro m x hx
      dsimp only at hx
      by_cases hm : m = t
      · subst hm
        rw [if_pos rfl] at hx
        cases hx
        exact ⟨sV, hsV, hnsV⟩
      · rw [if_neg hm] at hx
        exact hb m x hx
    · intro k xk hk hkne
      dsimp only
      by_cases hm : k = t
      · exact absurd (hm ▸ hkne) htNE
      · rw [if_neg hm]
        exact hpin k xk hk hkne
    · intro p hp
      rcases dset_mem hp with rfl | h'
      · exact Or.inr htNE
      · exact Or.inl h'
  · rw [if_neg hup]
    exact ⟨hb, hpin, fun p hp => Or.inl hp⟩

theorem epsNodeStep_bounded (A : Int → List Arc) (c s : ℚ) :
    ∀ (arcs : List Arc) (v V : Int → Option ℚ) (no : List (Int × ℚ))
      (hn : Bool), vLE v V → Pinned A V v →
      (∀ a ∈ arcs, a.olabel = EPS_ID →
        ∃ s', V a.nextstate = some s' ∧ s + c * a.weight ≤ s') →
      vLE (epsNodeStep c s arcs v no hn).1 V ∧
      Pinned A V (epsNodeStep c s arcs v no hn).1 ∧
      (∀ p ∈ (epsNodeStep c s arcs v no hn).2.1, p ∈ no ∨ ¬ hasNE A p.1) := by
  intro arcs
  induction arcs with
  | nil =>
    intro v V no hn hb hpin _
    exact ⟨hb, hpin, fun p hp => Or.inl hp⟩
  | cons a rest ih =>
    intro v V no hn hb hpin hrel
    by_cases ha : a.olabel = EPS_ID
    · rw [epsNodeStep, if_pos ha]
      obtain ⟨hb1, hpin1, hno1⟩ :=
        relaxArc_bounded A hb hpin (hrel a (by simp) ha)
      obtain ⟨hb2, hpin2, hno2⟩ := ih _ V _ hn hb1 hpin1
        (fun b hbmem hbw => hrel b (List.mem_cons_of_mem _ hbmem) hbw)
      refine ⟨hb2, hpin2, ?_⟩
      intro p hp
      rcases hno2 p hp with h1 | h1
      · exact hno1 p h1
      · exact Or.inr h1
    · rw [epsNodeStep, if_neg ha]
      exact ih v V no true hb hpin
        (fun b hbmem hbw => hrel b (List.mem_cons_of_mem _ hbmem) hbw)

theorem hasNE_any (A : Int → List Arc) (n : Int) :
    (A n).any (fun a => decide (a.olabel ≠ EPS_ID)) = true ↔ hasNE A n := by
  simp [hasNE, List.any_eq_true]

theorem dget?_isSome_dset {κ α : Type} [DecidableEq κ]
    {d : List (κ × α)} {m k : κ} (v : α) (h : (dget? d m).isSome) :
    (dget? (dset d k v) m).isSome := by
  by_cases hm : m = k
  · subst hm
    rw [dget?_dset_self]
    rfl
  · rw [dget?_dset_ne _ _ _ _ hm]
    exact h

/-- Tracking helper: an entry of `no` whose node keeps its score
survives into `no'`; if the score moved, the new score is in `no'`. -/
theorem track_up {v v' : Int → Option ℚ} {no no' : List (Int × ℚ)}
    (mono : vLE v v')
    (hch : ∀ m y, v' m = some y → v m = some y ∨ (m, y) ∈ no')
    (hsur : ∀ p ∈ no, v' p.1 = some p.2 → p ∈ no')
    {m : Int} {y0 : ℚ} (hv : v m = some y0) (htag : (m, y0) ∈ no) :
    ∃ y1, v' m = some y1 ∧ (m, y1) ∈ no' := by
  obtain ⟨y1, hy1, _⟩ := mono m y0 hv
  rcases hch m y1 hy1 with h | h
  · rw [hv] at h
    injection h with h2
    rw [← h2] at hy1
    exact ⟨y0, hy1, hsur (m, y0) htag hy1⟩
  · exact ⟨y1, hy1, h⟩

/-- Tracking helper: a score either survives unchanged or its new value
is recorded in `no'`. -/
theorem stay_or_track {v v' : Int → Option ℚ} {no' : List (Int × ℚ)}
    (mono : vLE v v')
    (hch : ∀ m y, v' m = some y → v m = some y ∨ (m, y) ∈ no')
    {m : Int} {y0 : ℚ} (hv : v m = some y0) :
    ∃ y1, v' m = some y1 ∧ (y1 = y0 ∨ (m, y1) ∈ no') := by
  obtain ⟨y1, hy1, _⟩ := mono m y0 hv
  rcases hch m y1 hy1 with h | h
  · rw [hv] at h
    injection h with h2
    exact ⟨y1, hy1, Or.inl h2.symm⟩
  · exact ⟨y1, hy1, Or.inr h⟩

theorem epsRound_A (A : Int → List Arc) (c : ℚ) :
    ∀ (openL : List (Int × ℚ)) (v : Int → Option ℚ)
      (no d : List (Int × ℚ)),
      (dkeys no).Nodup → (dkeys d).Nodup →
      (∀ p ∈ no, v p.1 = some p.2) →
      (∀ p ∈ openL, ∃ y, v p.1 = some y ∧ (y = p.2 ∨ (p.1, y) ∈ no)) →
      (∀ m y, v m = some y →
        (m, y) ∈ no ∨ (m, y) ∈ openL ∨ Relaxed A c v m y) →
      (∀ m y, v m = some y → hasNE A m →
        (dget? d m).isSome ∨ (m, y) ∈ no ∨ (m, y) ∈ openL) →
      (∀ m y, dget? d m = some y → hasNE A m ∧
        ∃ y', v m = some y' ∧ (y = y' ∨ (m, y') ∈ no ∨ (m, y') ∈ openL)) →
      (dkeys (epsRound A c openL v no d).2.1).Nodup ∧
      (dkeys (epsRound A c openL v no d).2.2).Nodup ∧
      (∀ p ∈ (epsRound A c openL v no d).2.1,
        (epsRound A c openL v no d).1 p.1 = some p.2) ∧
      (∀ m y, (epsRound A c openL v no d).1 m = some y →
        (m, y) ∈ (epsRound A c openL v no d).2.1 ∨
          Relaxed A c (epsRound A c openL v no d).1 m y) ∧
      (∀ m y, (epsRound A c openL v no d).1 m = some y → hasNE A m →
        (dget? (epsRound A c openL v no d).2.2 m).isSome ∨
          (m, y) ∈ (epsRound A c openL v no d).2.1) ∧
      (∀ m y, dget? (epsRound A c openL v no d).2.2 m = some y →
        hasNE A m ∧ ∃ y', (epsRound A c openL v no d).1 m = some y' ∧
          (y = y' ∨ (m, y') ∈ (epsRound A c openL v no d).2.1)) := by
  intro openL
  induction openL with
  | nil =>
    intro v no d hndNo hndD hsync _ hL1 hL2 hL3
    refine ⟨hndNo, hndD, hsync, ?_, ?_, ?_⟩
    · intro m y hv
      rcases hL1 m y hv with h | h | h
      · exact Or.inl h
      · simp at h
      · exact Or.inr h
    · intro m y hv hne
      rcases hL2 m y hv hne with h | h | h
      · exact Or.inl h
      · exact Or.inr h
      · simp at h
    · intro m y hd
      obtain ⟨hne, y', hy', hcase⟩ := hL3 m y hd
      refine ⟨hne, y', hy', ?_⟩
      rcases hcase with h | h | h
      · exact Or.inl h
      · exact Or.inr h
      · simp at h
  | cons p0 rest ih =>
    intro v no d hndNo hndD hsync hopen hL1 hL2 hL3
    obtain ⟨n, s⟩ := p0
    rw [show epsRound A c ((n, s) :: rest) v no d =
      epsRound A c rest (epsNodeStep c s (A n) v no false).1
        (epsNodeStep c s (A n) v no false).2.1
        (if (epsNodeStep c s (A n) v no false).2.2 then dset d n s else d)
      from rfl]
    have mono := epsNodeStep_mono c s (A n) v no false
    obtain ⟨hnd1, hs1, hch1, hsur1⟩ :=
      epsNodeStep_sync c s (A n) v no false hndNo hsync
    have hrelax := epsNodeStep_relaxes c s (A n) v no false
    have hhn := epsNodeStep_hn c s (A n) v no false
    rw [Bool.false_or] at hhn
    -- the head node's entry in open
    obtain ⟨y0, hy0, hy0c⟩ := hopen (n, s) (List.mem_cons_self _ _)
    -- invariants for the recursive call
    have hndD' : (dkeys (if (epsNodeStep c s (A n) v no false).2.2 then
        dset d n s else d)).Nodup := by
      by_cases hb : (epsNodeStep c s (A n) v no false).2.2 = true
      · rw [if_pos hb]; exact dkeys_nodup_dset n s hndD
      · rw [if_neg hb]; exact hndD
    have hopen' : ∀ p ∈ rest, ∃ y,
        (epsNodeStep c s (A n) v no false).1 p.1 = some y ∧
        (y = p.2 ∨ (p.1, y) ∈ (epsNodeStep c s (A n) v no false).2.1) := by
      intro p hp
      obtain ⟨y, hy, hyc⟩ := hopen p (List.mem_cons_of_mem _ hp)
      rcases hyc with rfl | htag
      · obtain ⟨y1, hy1, hy1c⟩ := stay_or_track mono hch1 hy
        exact ⟨y1, hy1, by
          rcases hy1c with h | h
          · exact Or.inl h
          · exact Or.inr h⟩
      · obtain ⟨y1, hy1, hmem⟩ := track_up mono hch1 hsur1 hy htag
        exact ⟨y1, hy1, Or.inr hmem⟩
    have hL1' : ∀ m y, (epsNodeStep c s (A n) v no false).1 m = some y →
        (m, y) ∈ (epsNodeStep c s (A n) v no false).2.1 ∨ (m, y) ∈ rest ∨
        Relaxed A c (epsNodeStep c s (A n) v no false).1 m y := by
      intro m y hv
      rcases hch1 m y hv with hold | hnew
      · rcases hL1 m y hold with h | h | h
        · exact Or.inl (hsur1 (m, y) h hv)
        · rcases List.mem_cons.mp h with heq | h'
          · have hm : m = n := congrArg Prod.fst heq
            have hs' : y = s := congrArg Prod.snd heq
            subst hm; subst hs'
            refine Or.inr (Or.inr ?_)
            intro a ha hw
            exact hrelax a ha hw
          · exact Or.inr (Or.inl h')
        · exact Or.inr (Or.inr (h.mono mono))
      · exact Or.inl hnew
    have hL2' : ∀ m y, (epsNodeStep c s (A n) v no false).1 m = some y →
        hasNE A m →
        (dget? (if (epsNodeStep c s (A n) v no false).2.2 then dset d n s
          else d) m).isSome ∨
        (m, y) ∈ (epsNodeStep c s (A n) v no false).2.1 ∨ (m, y) ∈ rest := by
      intro m y hv hne
      rcases hch1 m y hv with hold | hnew
      · rcases hL2 m y hold hne with h | h | h
        · left
          by_cases hb : (epsNodeStep c s (A n) v no false).2.2 = true
          · rw [if_pos hb]; exact dget?_isSome_dset s h
          · rw [if_neg hb]; exact h
        · exact Or.inr (Or.inl (hsur1 (m, y) h hv))
        · rcases List.mem_cons.mp h with heq | h'
          · have hm : m = n := congrArg Prod.fst heq
            subst hm
            left
            have hb : (epsNodeStep c s (A m) v no false).2.2 = true := by
              rw [hhn]; exact (hasNE_any A m).mpr hne
            rw [if_pos hb, dget?_dset_self]
            rfl
          · exact Or.inr (Or.inr h')
      · exact Or.inr (Or.inl hnew)
    have hL3' : ∀ m y,
        dget? (if (epsNodeStep c s (A n) v no false).2.2 then dset d n s
          else d) m = some y →
        hasNE A m ∧ ∃ y', (epsNodeStep c s (A n) v no false).1 m = some y' ∧
          (y = y' ∨ (m, y') ∈ (epsNodeStep c s (A n) v no false).2.1 ∨
            (m, y') ∈ rest) := by
      intro m y hd
      by_cases hb : (epsNodeStep c s (A n) v no false).2.2 = true
      · rw [if_pos hb] at hd
        by_cases hm : m = n
        · subst hm
          rw [dget?_dset_self] at hd
          injection hd with hd2
          subst hd2
          refine ⟨(hasNE_any A m).mp (hhn ▸ hb), ?_⟩
          rcases hy0c with rfl | htag
          · obtain ⟨y1, hy1, hy1c⟩ := stay_or_track mono hch1 hy0
            rcases hy1c with rfl | hmem
            · exact ⟨y1, hy1, Or.inl rfl⟩
            · exact ⟨y1, hy1, Or.inr (Or.inl hmem)⟩
          · obtain ⟨y1, hy1, hmem⟩ := track_up mono hch1 hsur1 hy0 htag
            exact ⟨y1, hy1, Or.inr (Or.inl hmem)⟩
        · rw [dget?_dset_ne _ _ _ _ hm] at hd
          obtain ⟨hne, y', hy', hcase⟩ := hL3 m y hd
          refine ⟨hne, ?_⟩
          rcases hcase with rfl | htag | hrest
          · obtain ⟨y1, hy1, hy1c⟩ := stay_or_track mono hch1 hy'
            rcases hy1c with rfl | hmem
            · exact ⟨y1, hy1, Or.inl rfl⟩
            · exact ⟨y1, hy1, Or.inr (Or.inl hmem)⟩
          · obtain ⟨y1, hy1, hmem⟩ := track_up mono hch1 hsur1 hy' htag
            exact ⟨y1, hy1, Or.inr (Or.inl hmem)⟩
          · rcases List.mem_cons.mp hrest with heq | h'
            · exact absurd (congrArg Prod.fst heq) hm
            · obtain ⟨y1, hy1, hy1c⟩ := stay_or_track mono hch1 hy'
              rcases hy1c with rfl | hmem
              · exact ⟨y1, hy1, Or.inr (Or.inr h')⟩
              · exact ⟨y1, hy1, Or.inr (Or.inl hmem)⟩
      · rw [if_neg hb] at hd
        obtain ⟨hne, y', hy', hcase⟩ := hL3 m y hd
        refine ⟨hne, ?_⟩
        rcases hcase with rfl | htag | hrest
        · obtain ⟨y1, hy1, hy1c⟩ := stay_or_track mono hch1 hy'
          rcases hy1c with rfl | hmem
          · exact ⟨y1, hy1, Or.inl rfl⟩
          · exact ⟨y1, hy1, Or.inr (Or.inl hmem)⟩
        · obtain ⟨y1, hy1, hmem⟩ := track_up mono hch1 hsur1 hy' htag
          exact ⟨y1, hy1, Or.inr (Or.inl hmem)⟩
        · rcases List.mem_cons.mp hrest with heq | h'
          · have hm : m = n := congrArg Prod.fst heq
            subst hm
            have : ¬ hasNE A m := by
              intro hcon
              exact hb (hhn ▸ (hasNE_any A m).mpr hcon)
            exact absurd hne this
          · obtain ⟨y1, hy1, hy1c⟩ := stay_or_track mono hch1 hy'
            rcases hy1c with rfl | hmem
            · exact ⟨y1, hy1, Or.inr (Or.inr h')⟩
            · exact ⟨y1, hy1, Or.inr (Or.inl hmem)⟩
    exact ih (epsNodeStep c s (A n) v no false).1
      (epsNodeStep c s (A n) v no false).2.1
      (if (epsNodeStep c s (A n) v no false).2.2 then dset d n s else d)
      hnd1 hndD' hs1 hopen' hL1' hL2' hL3'

theorem epsClosure_final (A : Int → List Arc) (c : ℚ)
    (v : Int → Option ℚ) (d : List (Int × ℚ))
    (hndD : (dkeys d).Nodup)
    (hL1 : ∀ m y, v m = some y →
      (m, y) ∈ ([] : List (Int × ℚ)) ∨ Relaxed A c v m y)
    (hL2 : ∀ m y, v m = some y → hasNE A m →
      (dget? d m).isSome ∨ (m, y) ∈ ([] : List (Int × ℚ)))
    (hL3 : ∀ m y, dget? d m = some y → hasNE A m ∧
      ∃ y', v m = some y' ∧ (y = y' ∨ (m, y') ∈ ([] : List (Int × ℚ)))) :
    RelaxedAll A c v ∧
    (∀ m y, v m = some y → hasNE A m → dget? d m = some y) ∧
    (∀ m y, dget? d m = some y → hasNE A m ∧ v m = some y) ∧
    (dkeys d).Nodup := by
  refine ⟨?_, ?_, ?_, hndD⟩
  · intro m y h
    exact (hL1 m y h).resolve_left (by simp)
  · intro m y hv hne
    have hd := (hL2 m y hv hne).resolve_right (by simp)
    obtain ⟨y2, hy2⟩ := Option.isSome_iff_exists.mp hd
    obtain ⟨_, y', hy', hc⟩ := hL3 m y2 hy2
    have h1 : y2 = y' := hc.resolve_right (by simp)
    rw [hv] at hy'
    injection hy' with h2
    rw [h1, ← h2] at hy2
    exact hy2
  · intro m y hd
    obtain ⟨hne, y', hy', hc⟩ := hL3 m y hd
    have h1 : y = y' := hc.resolve_right (by simp)
    exact ⟨hne, h1 ▸ hy'⟩

theorem epsLoop_A (A : Int → List Arc) (c : ℚ) :
    ∀ (fuel : Nat) (O : List (Int × ℚ)) (v : Int → Option ℚ)
      (d : List (Int × ℚ)) (V : Int → Option ℚ) (dF : List (Int × ℚ)),
      epsLoop A c fuel O v d = some (V, dF) →
      (dkeys O).Nodup → (dkeys d).Nodup →
      (∀ p ∈ O, v p.1 = some p.2) →
      (∀ m y, v m = some y → (m, y) ∈ O ∨ Relaxed A c v m y) →
      (∀ m y, v m = some y → hasNE A m → (dget? d m).isSome ∨ (m, y) ∈ O) →
      (∀ m y, dget? d m = some y → hasNE A m ∧
        ∃ y', v m = some y' ∧ (y = y' ∨ (m, y') ∈ O)) →
      RelaxedAll A c V ∧
      (∀ m y, V m = some y → hasNE A m → dget? dF m = some y) ∧
      (∀ m y, dget? dF m = some y → hasNE A m ∧ V m = some y) ∧
      (dkeys dF).Nodup := by
  intro fuel
  induction fuel with
  | zero =>
    intro O v d V dF h hndO hndD hsync hL1 hL2 hL3
    cases O with
    | nil =>
      rw [show epsLoop A c 0 [] v d = some (v, d) from rfl] at h
      injection h with h1
      rw [Prod.mk.injEq] at h1
      obtain ⟨hV, hdF⟩ := h1
      subst hV; subst hdF
      exact epsClosure_final A c v d hndD hL1 hL2 hL3
    | cons p rest =>
      rw [show epsLoop A c 0 (p :: rest) v d = none from rfl] at h
      cases h
  | succ f ihf =>
    intro O v d V dF h hndO hndD hsync hL1 hL2 hL3
    cases O with
    | nil =>
      rw [show epsLoop A c (f + 1) [] v d = some (v, d) from rfl] at h
      injection h with h1
      rw [Prod.mk.injEq] at h1
      obtain ⟨hV, hdF⟩ := h1
      subst hV; subst hdF
      exact epsClosure_final A c v d hndD hL1 hL2 hL3
    | cons p rest =>
      rw [show epsLoop A c (f + 1) (p :: rest) v d =
        epsLoop A c f (epsRound A c (p :: rest) v [] d).2.1
          (epsRound A c (p :: rest) v [] d).1
          (epsRound A c (p :: rest) v [] d).2.2 from rfl] at h
      obtain ⟨rnd1, rnd2, rnd3, rnd4, rnd5, rnd6⟩ :=
        epsRound_A A c (p :: rest) v [] d (by simp [dkeys]) hndD
          (by simp)
          (fun q hq => ⟨q.2, hsync q hq, Or.inl rfl⟩)
          (fun m y hv => by
            rcases hL1 m y hv with h' | h'
            · exact Or.inr (Or.inl h')
            · exact Or.inr (Or.inr h'))
          (fun m y hv hne => by
            rcases hL2 m y hv hne with h' | h'
            · exact Or.inl h'
            · exact Or.inr (Or.inr h'))
          (fun m y hd => by
            obtain ⟨hne, y', hy', hc⟩ := hL3 m y hd
            refine ⟨hne, y', hy', ?_⟩
            rcases hc with h' | h'
            · exact Or.inl h'
            · exact Or.inr (Or.inr h'))
      exact ihf _ _ _ _ _ h rnd1 rnd2 rnd3
        (fun m y hv => rnd4 m y hv)
        (fun m y hv hne => rnd5 m y hv hne)
        rnd6

theorem epsRound_B (A : Int → List Arc) (c : ℚ) (V : Int → Option ℚ)
    (hV : RelaxedAll A c V) :
    ∀ (openL : List (Int × ℚ)) (v : Int → Option ℚ)
      (no d : List (Int × ℚ)),
      vLE v V → Pinned A V v →
      (∀ p ∈ openL, ∃ y, V p.1 = some y ∧ p.2 ≤ y) →
      (∀ p ∈ openL, ¬ hasNE A p.1) →
      (dkeys no).Nodup → (∀ p ∈ no, v p.1 = some p.2) →
      (∀ p ∈ no, ¬ hasNE A p.1) →
      vLE (epsRound A c openL v no d).1 V ∧
      Pinned A V (epsRound A c openL v no d).1 ∧
      (dkeys (epsRound A c openL v no d).2.1).Nodup ∧
      (∀ p ∈ (epsRound A c openL v no d).2.1,
        (epsRound A c openL v no d).1 p.1 = some p.2) ∧
      (∀ p ∈ (epsRound A c openL v no d).2.1, ¬ hasNE A p.1) ∧
      (epsRound A c openL v no d).2.2 = d := by
  intro openL
  induction openL with
  | nil =>
    intro v no d hb hpin _ _ hnd hsync hnoNE
    exact ⟨hb, hpin, hnd, hsync, hnoNE, rfl⟩
  | cons p0 rest ih =>
    intro v no d hb hpin hOb hONE hnd hsync hnoNE
    obtain ⟨n, s⟩ := p0
    rw [show epsRound A c ((n, s) :: rest) v no d =
      epsRound A c rest (epsNodeStep c s (A n) v no false).1
        (epsNodeStep c s (A n) v no false).2.1
        (if (epsNodeStep c s (A n) v no false).2.2 then dset d n s else d)
      from rfl]
    obtain ⟨sV, hsV, hssV⟩ := hOb (n, s) (List.mem_cons_self _ _)
    have hrel : ∀ a ∈ A n, a.olabel = EPS_ID →
        ∃ s', V a.nextstate = some s' ∧ s + c * a.weight ≤ s' := by
      intro a ha hw
      obtain ⟨s', hs', hle⟩ := hV n sV hsV a ha hw
      exact ⟨s', hs', le_trans (by linarith) le_rfl⟩
    obtain ⟨hb1, hpin1, hno1⟩ :=
      epsNodeStep_bounded A c s (A n) v V no false hb hpin hrel
    obtain ⟨hnd1, hs1, _, _⟩ :=
      epsNodeStep_sync c s (A n) v no false hnd hsync
    have hnoNE1 : ∀ p ∈ (epsNodeStep c s (A n) v no false).2.1,
        ¬ hasNE A p.1 := by
      intro p hp
      rcases hno1 p hp with h | h
      · exact hnoNE p h
      · exact h
    have hd' : (if (epsNodeStep c s (A n) v no false).2.2 then dset d n s
        else d) = d := by
      have hne := hONE (n, s) (List.mem_cons_self _ _)
      have hhn := epsNodeStep_hn c s (A n) v no false
      rw [Bool.false_or] at hhn
      have : (epsNodeStep c s (A n) v no false).2.2 ≠ true := by
        intro hc
        exact hne ((hasNE_any A n).mp (hhn ▸ hc))
      rw [if_neg this]
    rw [hd']
    exact ih _ _ d hb1 hpin1
      (fun p hp => hOb p (List.mem_cons_of_mem _ hp))
      (fun p hp => hONE p (List.mem_cons_of_mem _ hp))
      hnd1 hs1 hnoNE1

theorem epsRound_B1 (A : Int → List Arc) (c : ℚ) (V : Int → Option ℚ)
    (hV : RelaxedAll A c V) :
    ∀ (l : List (Int × ℚ)) (v : Int → Option ℚ) (no d2 : List (Int × ℚ)),
      vLE v V → Pinned A V v →
      (dkeys no).Nodup → (∀ p ∈ no, v p.1 = some p.2) →
      (∀ p ∈ no, ¬ hasNE A p.1) →
      (∀ p ∈ l, hasNE A p.1 ∧ V p.1 = some p.2) →
      (dkeys l).Nodup →
      (∀ p ∈ l, ¬ p.1 ∈ dkeys d2) →
      vLE (epsRound A c l v no d2).1 V ∧
      Pinned A V (epsRound A c l v no d2).1 ∧
      (dkeys (epsRound A c l v no d2).2.1).Nodup ∧
      (∀ p ∈ (epsRound A c l v no d2).2.1,
        (epsRound A c l v no d2).1 p.1 = some p.2) ∧
      (∀ p ∈ (epsRound A c l v no d2).2.1, ¬ hasNE A p.1) ∧
      (epsRound A c l v no d2).2.2 = d2 ++ l := by
  intro l
  induction l with
  | nil =>
    intro v no d2 hb hpin hnd hsync hnoNE _ _ _
    exact ⟨hb, hpin, hnd, hsync, hnoNE, by
      rw [show (epsRound A c [] v no d2).2.2 = d2 from rfl]
      simp⟩
  | cons p0 rest ih =>
    intro v no d2 hb hpin hnd hsync hnoNE hl hlnd hfresh
    obtain ⟨n, s⟩ := p0
    rw [show epsRound A c ((n, s) :: rest) v no d2 =
      epsRound A c rest (epsNodeStep c s (A n) v no false).1
        (epsNodeStep c s (A n) v no false).2.1
        (if (epsNodeStep c s (A n) v no false).2.2 then dset d2 n s else d2)
      from rfl]
    obtain ⟨hnNE, hnV⟩ := hl (n, s) (List.mem_cons_self _ _)
    have hrel : ∀ a ∈ A n, a.olabel = EPS_ID →
        ∃ s', V a.nextstate = some s' ∧ s + c * a.weight ≤ s' :=
      fun a ha hw => hV n s hnV a ha hw
    obtain ⟨hb1, hpin1, hno1⟩ :=
      epsNodeStep_bounded A c s (A n) v V no false hb hpin hrel
    obtain ⟨hnd1, hs1, _, _⟩ :=
      epsNodeStep_sync c s (A n) v no false hnd hsync
    have hnoNE1 : ∀ p ∈ (epsNodeStep c s (A n) v no false).2.1,
        ¬ hasNE A p.1 := by
      intro p hp
      rcases hno1 p hp with h | h
      · exact hnoNE p h
      · exact h
    have hd' : (if (epsNodeStep c s (A n) v no false).2.2 then dset d2 n s
        else d2) = d2 ++ [(n, s)] := by
      have hhn := epsNodeStep_hn c s (A n) v no false
      rw [Bool.false_or] at hhn
      have hb2 : (epsNodeStep c s (A n) v no false).2.2 = true := by
        rw [hhn]; exact (hasNE_any A n).mpr hnNE
      rw [if_pos hb2,
        dset_eq_append_of_not_mem s (hfresh (n, s) (List.mem_cons_self _ _))]
    rw [hd']
    have hfresh' : ∀ p ∈ rest, ¬ p.1 ∈ dkeys (d2 ++ [(n, s)]) := by
      intro p hp hc
      rw [dkeys, List.map_append] at hc
      rcases List.mem_append.mp hc with h | h
      · exact hfresh p (List.mem_cons_of_mem _ hp) h
      · rw [List.map_singleton, List.mem_singleton] at h
        rw [dkeys, List.map_cons, List.nodup_cons] at hlnd
        exact hlnd.1 (h ▸ List.mem_map_of_mem (·.1) hp)
    have := ih (epsNodeStep c s (A n) v no false).1
      (epsNodeStep c s (A n) v no false).2.1 (d2 ++ [(n, s)])
      hb1 hpin1 hnd1 hs1 hnoNE1
      (fun p hp => hl p (List.mem_cons_of_mem _ hp))
      (by rw [dkeys, List.map_cons, List.nodup_cons] at hlnd; exact hlnd.2)
      hfresh'
    refine ⟨this.1, this.2.1, this.2.2.1, this.2.2.2.1, this.2.2.2.2.1, ?_⟩
    rw [this.2.2.2.2.2, List.append_assoc, List.singleton_append]

theorem epsLoop_B (A : Int → List Arc) (c : ℚ) (V : Int → Option ℚ)
    (hV : RelaxedAll A c V) :
    ∀ (fuel : Nat) (O : List (Int × ℚ)) (v : Int → Option ℚ)
      (d : List (Int × ℚ)) (vf : Int → Option ℚ) (df : List (Int × ℚ)),
      epsLoop A c fuel O v d = some (vf, df) →
      vLE v V → Pinned A V v →
      (dkeys O).Nodup → (∀ p ∈ O, v p.1 = some p.2) →
      (∀ p ∈ O, ¬ hasNE A p.1) →
      df = d := by
  intro fuel
  induction fuel with
  | zero =>
    intro O v d vf df h hb hpin hndO hsync hONE
    cases O with
    | nil =>
      rw [show epsLoop A c 0 [] v d = some (v, d) from rfl] at h
      injection h with h1
      rw [Prod.mk.injEq] at h1
      exact h1.2.symm
    | cons p rest =>
      rw [show epsLoop A c 0 (p :: rest) v d = none from rfl] at h
      cases h
  | succ f ihf =>
    intro O v d vf df h hb hpin hndO hsync hONE
    cases O with
    | nil =>
      rw [show epsLoop A c (f + 1) [] v d = some (v, d) from rfl] at h
      injection h with h1
      rw [Prod.mk.injEq] at h1
      exact h1.2.symm
    | cons p rest =>
      rw [show epsLoop A c (f + 1) (p :: rest) v d =
        epsLoop A c f (epsRound A c (p :: rest) v [] d).2.1
          (epsRound A c (p :: rest) v [] d).1
          (epsRound A c (p :: rest) v [] d).2.2 from rfl] at h
      obtain ⟨rb, rpin, rnd, rsync, rNE, rd⟩ :=
        epsRound_B A c V hV (p :: rest) v [] d hb hpin
          (fun q hq => by
            obtain ⟨y, hy, hle⟩ := hb q.1 q.2 (hsync q hq)
            exact ⟨y, hy, hle⟩)
          hONE (by simp [dkeys]) (by simp) (by simp)
      have := ihf _ _ _ _ _ h rb rpin rnd rsync rNE
      rw [this, rd]

theorem epsLoop_nil (A : Int → List Arc) (c : ℚ) (fuel : Nat)
    (v : Int → Option ℚ) (d : List (Int × ℚ)) :
    epsLoop A c fuel [] v d = some (v, d) := by
  cases fuel <;> rfl

/-- C9: epsilon closure is idempotent — whenever `_follow_eps`
terminates on a root dict and its output frontier is fed back in as
roots, a terminating re-closure returns exactly the same list of
`(score, state)` pairs. -/
theorem c9_eps_closure_idempotent (A : Int → List Arc) (c : ℚ)
    (fuel fuel2 : Nat) (roots : List (Int × ℚ))
    (out out2 : List (ℚ × Int)) (hkeys : (dkeys roots).Nodup)
    (h1 : followEps A c fuel roots = some out)
    (h2 : followEps A c fuel2 (out.map (fun p => (p.2, p.1))) = some out2) :
    out2 = out := by
  unfold followEps at h1 h2
  rw [Option.map_eq_some'] at h1 h2
  obtain ⟨⟨V, dOut⟩, hloop1, hout⟩ := h1
  obtain ⟨⟨V2, d2F⟩, hloop2, hout2⟩ := h2
  obtain ⟨hVrel, hC2, hC3, hndD⟩ :=
    epsLoop_A A c fuel roots (rootsFun roots) [] V dOut hloop1 hkeys
      (by simp [dkeys])
      (fun p hp => dget?_eq_of_mem hkeys hp)
      (fun m y hv => Or.inl (mem_of_dget? hv))
      (fun m y hv hne => Or.inr (mem_of_dget? hv))
      (fun m y hd => by
        rw [show dget? ([] : List (Int × ℚ)) m = none from rfl] at hd
        cases hd)
  have hroots2 : out.map (fun p => (p.2, p.1)) = dOut := by
    rw [← hout, List.map_map,
      show ((fun p : ℚ × Int => (p.2, p.1)) ∘
        (fun p : Int × ℚ => (p.2, p.1))) = id from funext fun p => rfl,
      List.map_id]
  rw [hroots2] at hloop2
  have hb0 : vLE (rootsFun dOut) V := by
    intro m x hx
    obtain ⟨_, hVx⟩ := hC3 m x hx
    exact ⟨x, hVx, le_rfl⟩
  have hpin0 : Pinned A V (rootsFun dOut) := fun k xk hk hne => hC2 k xk hk hne
  have hd2F : d2F = dOut := by
    cases dOut with
    | nil =>
      rw [epsLoop_nil] at hloop2
      injection hloop2 with hp
      rw [Prod.mk.injEq] at hp
      exact hp.2.symm
    | cons p rest =>
      cases fuel2 with
      | zero =>
        rw [show epsLoop A c 0 (p :: rest) (rootsFun (p :: rest)) [] = none
          from rfl] at hloop2
        cases hloop2
      | succ f =>
        rw [show epsLoop A c (f + 1) (p :: rest) (rootsFun (p :: rest)) [] =
          epsLoop A c f
            (epsRound A c (p :: rest) (rootsFun (p :: rest)) [] []).2.1
            (epsRound A c (p :: rest) (rootsFun (p :: rest)) [] []).1
            (epsRound A c (p :: rest) (rootsFun (p :: rest)) [] []).2.2
          from rfl] at hloop2
        obtain ⟨rb1, rpin1, rnd1, rsync1, rNE1, rd1⟩ :=
          epsRound_B1 A c V hVrel (p :: rest) (rootsFun (p :: rest)) [] []
            hb0 hpin0 (by simp [dkeys]) (by simp) (by simp)
            (fun q hq => (hC3 q.1 q.2 (dget?_eq_of_mem hndD hq)))
            hndD (by simp [dkeys])
        have hfin := epsLoop_B A c V hVrel f _ _ _ _ _ hloop2 rb1 rpin1
          rnd1 rsync1 rNE1
        rw [hfin, rd1]
        simp
  rw [← hout2, hd2F, hout]

/-- Witness for C9: closing `{0 ↦ 0}` under epsilons (with the log-domain
factor `-1`) yields the frontier `[(-1, 1)]`, and re-closing that
frontier returns it unchanged. -/
theorem c9_eps_closure_idempotent_witness :
    followEps c9Arcs (-1) 5 [(0, 0)] = some [(-1, 1)] ∧
    followEps c9Arcs (-1) 5
      (([((-1 : ℚ), (1 : Int))]).map (fun p => (p.2, p.1))) =
      some [(-1, 1)] := by
  have h1 : followEps c9Arcs (-1) 5 [(0, 0)] = some [(-1, 1)] := by
    norm_num [followEps, epsLoop, epsRound, epsNodeStep, relaxArc, negInfLt,
      rootsFun, dget?, dset, c9Arcs, EPS_ID]
  have h2 : followEps c9Arcs (-1) 5
      (([((-1 : ℚ), (1 : Int))]).map (fun p => (p.2, p.1))) =
      some [(-1, 1)] := by
    norm_num [followEps, epsLoop, epsRound, epsNodeStep, relaxArc, negInfLt,
      rootsFun, dget?, dset, c9Arcs, EPS_ID]
  obtain ⟨o, ho⟩ : ∃ o, followEps c9Arcs (-1) 5
      (([((-1 : ℚ), (1 : Int))]).map (fun p => (p.2, p.1))) = some o :=
    ⟨[(-1, 1)], h2⟩
  have hidem := c9_eps_closure_idempotent c9Arcs (-1) 5 5 [(0, 0)]
    [(-1, 1)] o (by simp [dkeys]) h1 ho
  rw [hidem] at ho
  exact ⟨h1, ho⟩

end SgnmtAutomata
